import Mathlib

/-!
# Terminal-output renderer: escape-sequence interpreter of `image.go`

A shallow embedding of the escape-sequence interpreter of `src/image.go`
(`NewRGBColor`, `setBase16Color`, `shouldPrint`, the character loop of
`SavePNG`) together with the pattern table `ansiSequenceRegexMap`, and of the
layout pass (`calculateWidth`, `measureContent`) as far as it changes the text.

Conventions of the embedding.

* Go strings are lists of Unicode characters (`List Char`); the program only
  ever decodes its text as runes.
* Go `int` is 64 bit; it is embedded in `Int`.  The only arithmetic on it is
  `color += 10` on a value below 1000 and differences of lengths of texts, so
  no wrap-around can occur.
* The `float64` product `float64(n) * 1.47` is computed exactly as the machine
  does: the exact product with the `float64` nearest to 1.47 is rounded to 53
  binary digits, a tie going to the even neighbour.
* Pointers to colours (`*RGB`, possibly `nil`) are `Option RGB`; the colour
  records are never written through a pointer.
* A Go run-time panic (index out of range, negative repeat count) is the
  result `none`.
* `shouldPrint` ranges over a Go map.  Go does not specify the order of that
  iteration, so the order is a parameter of the embedding, and a statement
  about the program holds for every permutation of the pattern table.
* The regular expressions of the table are written as syntax trees and run by
  a backtracking matcher that enumerates the matches in the order of
  preference of Go's `regexp` package (leftmost-first, greedy operators).
-/

namespace Image

/-! ## Text helpers from the Go standard library -/

/-- The escape character `\x1b`. -/
def ESC : Char := '\x1b'

/-- The bell character `\007`. -/
def BEL : Char := '\x07'

/-- Go `strings.HasPrefix`. -/
def HasPrefix : List Char → List Char → Bool
  | _, [] => true
  | [], _ :: _ => false
  | c :: cs, p :: ps => c == p && HasPrefix cs ps

/-- Go `strings.TrimPrefix`: the text without the given leading prefix, or the
text itself when it does not start with the prefix. -/
def TrimPrefix (s pre : List Char) : List Char :=
  if HasPrefix s pre then s.drop pre.length else s

/-- Go `strings.Split` with a one-character separator. -/
def Split (sep : Char) : List Char → List (List Char)
  | [] => [[]]
  | c :: cs =>
    if c = sep then [] :: Split sep cs
    else
      match Split sep cs with
      | [] => [[c]]
      | f :: fs => (c :: f) :: fs

/-- Outcome of the digit loop of Go `strconv.ParseUint` in base 10 at 64 bit. -/
inductive UintResult where
  | ok (n : Nat)
  | syntaxErr
  | rangeErr
  deriving DecidableEq, Repr

/-- The digit loop of `strconv.ParseUint(s, 10, 64)`: a character that is not
a decimal digit is a syntax error; an accumulator that leaves the unsigned
64-bit range is a range error, reported as soon as it happens. -/
def parseUintLoop : List Char → Nat → UintResult
  | [], n => .ok n
  | c :: cs, n =>
    if c.isDigit then
      if n ≥ (2 ^ 64 - 1) / 10 + 1 then .rangeErr
      else if n * 10 + (c.toNat - 48) > 2 ^ 64 - 1 then .rangeErr
      else parseUintLoop cs (n * 10 + (c.toNat - 48))
    else .syntaxErr

/-- Go `strconv.Atoi` on a 64-bit platform.  The result is the pair of the
returned integer and the flag `err != nil`.  On a syntax error the integer is
`0`; on a range error it is the nearest bound of the 64-bit range. -/
def Atoi (s : List Char) : Int × Bool :=
  let neg : Bool := match s with
    | c :: _ => c == '-'
    | [] => false
  let ds : List Char := match s with
    | c :: cs => if c == '-' || c == '+' then cs else s
    | [] => s
  if ds = [] then (0, true)
  else
    match parseUintLoop ds 0 with
    | .syntaxErr => (0, true)
    | .rangeErr => if neg then (-(2 ^ 63 : Int), true) else ((2 ^ 63 : Int) - 1, true)
    | .ok n =>
      if neg then
        if n > 2 ^ 63 then (-(2 ^ 63 : Int), true) else (-(n : Int), false)
      else
        if n ≥ 2 ^ 63 then ((2 ^ 63 : Int) - 1, true) else ((n : Int), false)

/-- Go `fmt.Sprint` of an integer: its decimal text. -/
def Sprint (n : Int) : List Char :=
  if n < 0 then '-' :: Nat.toDigits 10 n.natAbs else Nat.toDigits 10 n.toNat

/-! ## Colours and the renderer state -/

/-- The Go struct `RGB`. -/
structure RGB where
  r : Int
  g : Int
  b : Int
  deriving DecidableEq, Repr

/-- Go `NewRGBColor`: split the captured text on `;` and convert the first
three fields, ignoring conversion errors.  Fewer than three fields make the
indexing `colors[1]` or `colors[2]` panic, which is `none`. -/
def NewRGBColor (ansiColor : List Char) : Option RGB :=
  match Split ';' ansiColor with
  | c0 :: c1 :: c2 :: _ => some ⟨(Atoi c0).1, (Atoi c1).1, (Atoi c2).1⟩
  | _ => none

/-- The fields of the Go struct `ImageRenderer` that the escape-sequence
interpreter reads or writes.  The pattern table is the constant
`ansiSequenceRegexMap` below; fonts and geometry play no part here. -/
structure ImageRenderer where
  ansiString : List Char
  defaultForegroundColor : RGB
  defaultBackgroundColor : RGB
  style : String
  backgroundColor : Option RGB
  foregroundColor : Option RGB
  deriving DecidableEq, Repr

/-- The interpreter fields as `NewImageRenderer` initialises them. -/
def NewImageRenderer (content : List Char) : ImageRenderer :=
  { ansiString := content
    defaultForegroundColor := ⟨255, 255, 255⟩
    defaultBackgroundColor := ⟨21, 21, 21⟩
    style := ""
    backgroundColor := none
    foregroundColor := none }

/-- The colour table of `setBase16Color` (the `switch colorInt` statement):
the colour selected for a code, `dflt` for a code without a case. -/
def base16Color (dflt : RGB) (colorInt : Int) : RGB :=
  if colorInt = 30 ∨ colorInt = 40 then ⟨1, 1, 1⟩
  else if colorInt = 31 ∨ colorInt = 41 then ⟨222, 56, 43⟩
  else if colorInt = 32 ∨ colorInt = 42 then ⟨57, 181, 74⟩
  else if colorInt = 33 ∨ colorInt = 43 then ⟨255, 199, 6⟩
  else if colorInt = 34 ∨ colorInt = 44 then ⟨0, 111, 184⟩
  else if colorInt = 35 ∨ colorInt = 45 then ⟨118, 38, 113⟩
  else if colorInt = 36 ∨ colorInt = 46 then ⟨44, 181, 233⟩
  else if colorInt = 37 ∨ colorInt = 47 then ⟨204, 204, 204⟩
  else if colorInt = 90 ∨ colorInt = 100 then ⟨128, 128, 128⟩
  else if colorInt = 91 ∨ colorInt = 101 then ⟨255, 0, 0⟩
  else if colorInt = 92 ∨ colorInt = 102 then ⟨0, 255, 0⟩
  else if colorInt = 93 ∨ colorInt = 103 then ⟨255, 255, 0⟩
  else if colorInt = 94 ∨ colorInt = 104 then ⟨0, 0, 255⟩
  else if colorInt = 95 ∨ colorInt = 105 then ⟨255, 0, 255⟩
  else if colorInt = 96 ∨ colorInt = 106 then ⟨101, 194, 205⟩
  else if colorInt = 97 ∨ colorInt = 107 then ⟨255, 255, 255⟩
  else dflt

/-- Go `setBase16Color`.  A conversion error first stores the default
foreground colour in the foreground; the code then selects a colour and the
range test on the code selects the slot that receives it. -/
def setBase16Color (s : ImageRenderer) (colorStr : List Char) : ImageRenderer :=
  let colorInt := (Atoi colorStr).1
  let err := (Atoi colorStr).2
  let s1 := if err then { s with foregroundColor := some s.defaultForegroundColor } else s
  let color := base16Color s.defaultForegroundColor colorInt
  if colorInt < 40 ∨ (colorInt ≥ 90 ∧ colorInt < 100) then
    { s1 with foregroundColor := some color }
  else
    { s1 with backgroundColor := some color }

/-! ## Regular expressions of the pattern table -/

/-- One-character classes used by the patterns. -/
inductive Cls where
  /-- The class `\d`: an ASCII decimal digit. -/
  | digit
  /-- The class `.`: any character except the line feed. -/
  | dot
  /-- A bracket class such as `[FB]`. -/
  | oneOf (cs : List Char)
  deriving DecidableEq, Repr

/-- Membership of a character in a class. -/
def Cls.test : Cls → Char → Bool
  | .digit, c => c.isDigit
  | .dot, c => c != '\n'
  | .oneOf cs, c => cs.contains c

/-- Syntax of the regular expressions of the table.  Every pattern of the
table starts with `^`, so a pattern is always run at the start of the text and
the anchor has no constructor.  Unnamed groups only bracket a subexpression
(their captures are stored under the empty name, which is never read). -/
inductive Re where
  /-- A run of literal characters. -/
  | lit (l : List Char)
  /-- One character of a class. -/
  | cls (p : Cls)
  /-- Greedy `p+` for a one-character class `p` (`\d+`, `.+`). -/
  | plus (p : Cls)
  /-- Greedy `a?`. -/
  | opt (a : Re)
  /-- Greedy counted repetition `a{min,min+extra}`. -/
  | rep (a : Re) (min extra : Nat)
  /-- Concatenation. -/
  | cat (a b : Re)
  /-- Named capture group `(?P<name>a)`. -/
  | group (name : String) (a : Re)
  deriving Repr

/-- Captured fields by name, most recent first. -/
abbrev Captures := List (String × List Char)

/-- Go map indexing `match[name]`: the captured text, empty when absent. -/
def Captures.get : Captures → String → List Char
  | [], _ => []
  | (k, v) :: more, name => if k = name then v else Captures.get more name

/-- A matcher position: the text still to be matched and the captures so far. -/
abbrev MState := List Char × Captures

/-- All ways for the greedy `p+` to match at the start of a text, longest
first: the texts that can remain. -/
def plusRun (p : Char → Bool) : List Char → List (List Char)
  | [] => []
  | c :: cs => if p c then plusRun p cs ++ [cs] else []

/-- All ways to go through up to `extra` further optional rounds of a greedy
counted repetition, in order of preference: one more round first, stopping
here last. -/
def optRun (f : MState → List MState) : Nat → MState → List MState
  | 0, st => [st]
  | k + 1, st => (f st).flatMap (optRun f k) ++ [st]

/-- All ways for the greedy counted repetition to match, in order of
preference: `min` compulsory rounds, then up to `extra` optional ones. -/
def repRun (f : MState → List MState) : Nat → Nat → MState → List MState
  | 0, k, st => optRun f k st
  | n + 1, k, st => (f st).flatMap (repRun f n k)

/-- All matches of an expression at the start of the text of a position, in
the order in which a backtracking matcher finds them; the first one is the
match that Go's `regexp` reports. -/
def Re.run : Re → MState → List MState
  | .lit l, st => if HasPrefix st.1 l then [(st.1.drop l.length, st.2)] else []
  | .cls p, st =>
    match st.1 with
    | [] => []
    | c :: cs => if p.test c then [(cs, st.2)] else []
  | .plus p, st => (plusRun p.test st.1).map fun rest => (rest, st.2)
  | .opt a, st => a.run st ++ [st]
  | .rep a n k, st => repRun a.run n k st
  | .cat a b, st => (a.run st).flatMap b.run
  | .group name a, st =>
    (a.run st).map fun st1 =>
      (st1.1, (name, st.1.take (st.1.length - st1.1.length)) :: st1.2)

-- the names of the capture groups
def FG : String := "FG"
def BG : String := "BG"
def STR : String := "STR"
def URL : String := "URL"

-- the names of the known sequences
def invertedColor : String := "inverted"
def invertedColorSingle : String := "invertedsingle"
def fullColor : String := "full"
def foreground : String := "foreground"
def reset : String := "reset"
def bold : String := "bold"
def boldReset : String := "boldr"
def italic : String := "italic"
def italicReset : String := "italicr"
def underline : String := "underline"
def underlineReset : String := "underliner"
def strikethrough : String := "strikethrough"
def strikethroughReset : String := "strikethroughr"
def color16 : String := "color16"
def left : String := "left"
def osc99 : String := "osc99"
def lineChange : String := "linechange"
def title : String := "title"
def link : String := "link"

/-- The subexpression `(\d+;?){3}` of the RGB patterns. -/
def rgbFields : Re := .rep (.cat (.plus .digit) (.opt (.lit [';']))) 3 0

/-- The pattern table `ansiSequenceRegexMap` of `NewImageRenderer`, in the
order of the map literal.  A Go map has no order of its own: see
`shouldPrint`. -/
def ansiSequenceRegexMap : List (String × Re) :=
  -- invertedColor: ^(?P<STR>(\x1b\[38;2;(?P<BG>(\d+;?){3});49m){1}(\x1b\[7m))
  [ (invertedColor,
      .group STR (.cat
        (.rep (.cat (.lit (ESC :: "[38;2;".toList)) (.cat (.group BG rgbFields) (.lit ";49m".toList))) 1 0)
        (.lit (ESC :: "[7m".toList)))),
    -- invertedColorSingle: ^(?P<STR>\x1b\[(?P<BG>\d{2,3});49m\x1b\[7m)
    (invertedColorSingle,
      .group STR (.cat (.lit [ESC, '['])
        (.cat (.group BG (.rep (.cls .digit) 2 1)) (.cat (.lit ";49m".toList) (.lit (ESC :: "[7m".toList)))))),
    -- fullColor: ^(?P<STR>(\x1b\[48;2;(?P<BG>(\d+;?){3})m)(\x1b\[38;2;(?P<FG>(\d+;?){3})m))
    (fullColor,
      .group STR (.cat
        (.cat (.lit (ESC :: "[48;2;".toList)) (.cat (.group BG rgbFields) (.lit ['m'])))
        (.cat (.lit (ESC :: "[38;2;".toList)) (.cat (.group FG rgbFields) (.lit ['m']))))),
    -- foreground: ^(?P<STR>(\x1b\[38;2;(?P<FG>(\d+;?){3})m))
    (foreground,
      .group STR (.cat (.lit (ESC :: "[38;2;".toList)) (.cat (.group FG rgbFields) (.lit ['m'])))),
    -- reset: ^(?P<STR>\x1b\[0m)
    (reset, .group STR (.lit (ESC :: "[0m".toList))),
    -- bold: ^(?P<STR>\x1b\[1m)
    (bold, .group STR (.lit (ESC :: "[1m".toList))),
    -- boldReset: ^(?P<STR>\x1b\[22m)
    (boldReset, .group STR (.lit (ESC :: "[22m".toList))),
    -- italic: ^(?P<STR>\x1b\[3m)
    (italic, .group STR (.lit (ESC :: "[3m".toList))),
    -- italicReset: ^(?P<STR>\x1b\[23m)
    (italicReset, .group STR (.lit (ESC :: "[23m".toList))),
    -- underline: ^(?P<STR>\x1b\[4m)
    (underline, .group STR (.lit (ESC :: "[4m".toList))),
    -- underlineReset: ^(?P<STR>\x1b\[24m)
    (underlineReset, .group STR (.lit (ESC :: "[24m".toList))),
    -- strikethrough: ^(?P<STR>\x1b\[9m)
    (strikethrough, .group STR (.lit (ESC :: "[9m".toList))),
    -- strikethroughReset: ^(?P<STR>\x1b\[29m)
    (strikethroughReset, .group STR (.lit (ESC :: "[29m".toList))),
    -- color16: ^(?P<STR>\x1b\[(?P<FG>\d{2,3})m)
    (color16,
      .group STR (.cat (.lit [ESC, '[']) (.cat (.group FG (.rep (.cls .digit) 2 1)) (.lit ['m'])))),
    -- left: ^(?P<STR>\x1b\[(\d{1,3})D)
    (left,
      .group STR (.cat (.lit [ESC, '[']) (.cat (.rep (.cls .digit) 1 2) (.lit ['D'])))),
    -- osc99: ^(?P<STR>\x1b\]9;9;(.+)\x1b\\)
    (osc99,
      .group STR (.cat (.lit (ESC :: "]9;9;".toList)) (.cat (.plus .dot) (.lit [ESC, '\\'])))),
    -- lineChange: ^(?P<STR>\x1b\[(\d)[FB])
    (lineChange,
      .group STR (.cat (.lit [ESC, '[']) (.cat (.cls .digit) (.cls (.oneOf ['F', 'B']))))),
    -- title: ^(?P<STR>\x1b\]0;(.+)\007)
    (title,
      .group STR (.cat (.lit (ESC :: "]0;".toList)) (.cat (.plus .dot) (.lit [BEL])))),
    -- link: ^(?P<STR>\x1b]8;;file:\/\/(.+)\x1b\\(?P<URL>.+)\x1b]8;;\x1b\\)
    (link,
      .group STR (.cat (.lit (ESC :: "]8;;file://".toList))
        (.cat (.plus .dot) (.cat (.lit [ESC, '\\'])
          (.cat (.group URL (.plus .dot)) (.lit (ESC :: (']' :: '8' :: ';' :: ';' :: ESC :: ['\\'])))))))) ]

/-- Modelled from the spec: `findNamedRegexMatch` is not part of `image.go`.
It reports the first match of the pattern at the start of the text, as the map
from group names to captured texts, and nothing (the empty map, here `none`)
when the pattern does not match. -/
def findNamedRegexMatch (regex : Re) (text : List Char) : Option Captures :=
  ((regex.run (text, [])).head?).map fun st => st.2

/-- Go `shouldPrint`.  The loop ranges over a Go map, whose iteration order is
unspecified and may differ from call to call, so the order of traversal is the
parameter `order`; a possible traversal is any permutation of
`ansiSequenceRegexMap`.  The result is `none` when `NewRGBColor` panics, and
otherwise the returned flag with the state after the call.  The `link` case
has no `return`: the loop goes on with the entries not yet visited. -/
def shouldPrint : List (String × Re) → ImageRenderer → Option (Bool × ImageRenderer)
  | [], s => some (true, s)
  | (sequence, regex) :: more, s =>
    match findNamedRegexMatch regex s.ansiString with
    | none => shouldPrint more s
    | some m =>
      let s1 := { s with ansiString := TrimPrefix s.ansiString (m.get STR) }
      if sequence = invertedColor then
        (NewRGBColor (m.get BG)).map fun c =>
          (false, { s1 with foregroundColor := some s1.defaultBackgroundColor,
                            backgroundColor := some c })
      else if sequence = invertedColorSingle then
        let color := (Atoi (m.get BG)).1 + 10
        some (false, setBase16Color
          { s1 with foregroundColor := some s1.defaultBackgroundColor } (Sprint color))
      else if sequence = fullColor then
        (NewRGBColor (m.get FG)).bind fun fg =>
          (NewRGBColor (m.get BG)).map fun bg =>
            (false, { s1 with foregroundColor := some fg, backgroundColor := some bg })
      else if sequence = foreground then
        (NewRGBColor (m.get FG)).map fun fg =>
          (false, { s1 with foregroundColor := some fg })
      else if sequence = reset then
        some (false, { s1 with foregroundColor := some s1.defaultForegroundColor,
                               backgroundColor := none })
      else if sequence = bold ∨ sequence = italic ∨ sequence = underline then
        some (false, { s1 with style := sequence })
      else if sequence = boldReset ∨ sequence = italicReset ∨ sequence = underlineReset then
        some (false, { s1 with style := "" })
      else if sequence = strikethrough ∨ sequence = strikethroughReset ∨ sequence = left
          ∨ sequence = osc99 ∨ sequence = lineChange ∨ sequence = title then
        some (false, s1)
      else if sequence = color16 then
        some (false, setBase16Color s1 (m.get FG))
      else if sequence = link then
        shouldPrint more { s1 with ansiString := m.get URL ++ s1.ansiString }
      else
        shouldPrint more s1

/-! ## The character loop of `SavePNG` -/

/-- Go `correctString`: the fixed substitution of symbols that the embedded
font lacks.  The characters are given by their code points: U+2717 becomes
U+00D7; U+276F and U+279C become `>`; U+F449 becomes U+E26E; U+250F and U+2516
become `-`; U+25CF becomes `o`; U+2593 becomes U+2588; U+276E becomes `<`. -/
def correctString (str : List Char) : List Char :=
  if str = [Char.ofNat 0x2717] then [Char.ofNat 0x00D7]
  else if str = [Char.ofNat 0x276F] ∨ str = [Char.ofNat 0x279C] then ['>']
  else if str = [Char.ofNat 0xF449] then [Char.ofNat 0xE26E]
  else if str = [Char.ofNat 0x250F] ∨ str = [Char.ofNat 0x2516] then ['-']
  else if str = [Char.ofNat 0x25CF] then ['o']
  else if str = [Char.ofNat 0x2593] then [Char.ofNat 0x2588]
  else if str = [Char.ofNat 0x276E] then ['<']
  else str

/-- The three font faces of the renderer. -/
inductive Face where
  | regular
  | bold
  | italic
  deriving DecidableEq, Repr

/-- What one printing round of the loop of `SavePNG` puts on the canvas.  Pen
positions and glyph metrics belong to the font and canvas libraries and are
left out. -/
inductive DrawOp where
  /-- A string drawn with `DrawString` in a face and a colour, over a filled
  rectangle when `background` is a colour, with the underline rule stroked
  when `underlined` holds. -/
  | glyph (str : List Char) (face : Face) (color : RGB) (background : Option RGB)
      (underlined : Bool)
  /-- A line feed: the pen returns to the left margin one line down; the
  rectangle is filled all the same when `background` is a colour. -/
  | lineBreak (background : Option RGB)
  deriving DecidableEq, Repr

/-- The `switch s.style` of the loop of `SavePNG`: the face for a style. -/
def fontFace (style : String) : Face :=
  if style = bold then Face.bold
  else if style = italic then Face.italic
  else Face.regular

/-- The printing part of one round of the loop of `SavePNG`, for the character
`c` just taken from the text: the face follows the style, the rectangle is
filled when a background colour is set, the colour is the foreground colour or
the default one, and the corrected string is drawn unless it is the line
feed. -/
def drawRune (s : ImageRenderer) (c : Char) : DrawOp :=
  let face := fontFace s.style
  let color :=
    match s.foregroundColor with
    | some fg => fg
    | none => s.defaultForegroundColor
  let str := correctString [c]
  if str = ['\n'] then .lineBreak s.backgroundColor
  else .glyph str face color s.backgroundColor (s.style = underline)

/-- How a run of the loop ends. -/
inductive LoopResult where
  /-- The text is used up: the final state and the operations drawn. -/
  | done (s : ImageRenderer) (ops : List DrawOp)
  /-- A run-time panic stopped the program. -/
  | panic
  /-- The rounds granted did not suffice. -/
  | outOfFuel
  deriving DecidableEq, Repr

/-- The loop `for len(s.ansiString) != 0` of `SavePNG`, for at most `fuel`
rounds.  `orders k` is the order in which `shouldPrint` traverses the pattern
table in the round with `k` rounds left; `ops` collects what was drawn.
Taking the first rune of an empty text (`runes[0:1]`) panics. -/
def SavePNG_loop (orders : Nat → List (String × Re)) :
    Nat → ImageRenderer → List DrawOp → LoopResult
  | 0, s, ops => if s.ansiString = [] then .done s ops else .outOfFuel
  | fuel + 1, s, ops =>
    if s.ansiString = [] then .done s ops
    else
      match shouldPrint (orders fuel) s with
      | none => .panic
      | some (false, s1) => SavePNG_loop orders fuel s1 ops
      | some (true, s1) =>
        match s1.ansiString with
        | [] => .panic
        | c :: cs =>
          SavePNG_loop orders fuel { s1 with ansiString := cs }
            (ops ++ [drawRune { s1 with ansiString := cs } c])

/-! ## The layout pass `measureContent` -/

/-- Go `strings.Contains`. -/
def Contains : List Char → List Char → Bool
  | [], sub => HasPrefix [] sub
  | c :: cs, sub => HasPrefix (c :: cs) sub || Contains cs sub

/-- The scanning loop of Go `strings.ReplaceAll` for a non-empty `old`: at an
occurrence of `old` the text `new` is written and the scan goes on after the
occurrence; elsewhere one character is copied.  The first argument bounds the
number of steps. -/
def replaceAllLoop (old new : List Char) : Nat → List Char → List Char
  | 0, s => s
  | _ + 1, [] => []
  | n + 1, c :: cs =>
    if HasPrefix (c :: cs) old then new ++ replaceAllLoop old new n ((c :: cs).drop old.length)
    else c :: replaceAllLoop old new n cs

/-- Go `strings.ReplaceAll(s, old, new)` for a non-empty `old`. -/
def ReplaceAll (s old new : List Char) : List Char :=
  replaceAllLoop old new s.length s

/-- Go `strings.Replace(s, old, new, 1)` for a non-empty `old`: only the first
occurrence is replaced. -/
def ReplaceFirst : List Char → List Char → List Char → List Char
  | [], _, _ => []
  | c :: cs, old, new =>
    if HasPrefix (c :: cs) old then new ++ (c :: cs).drop old.length
    else c :: ReplaceFirst cs old new

/-- Go `strings.Repeat(s, count)`: a negative count panics. -/
def Repeat (s : List Char) (count : Int) : Option (List Char) :=
  if count < 0 then none else some (List.replicate count.toNat s).flatten

/-- Go `strings.Trim(s, cutset)` for a cutset of one character. -/
def Trim (s : List Char) (cut : Char) : List Char :=
  ((s.dropWhile fun c => c == cut).reverse.dropWhile fun c => c == cut).reverse

/-- Go `strings.Join(elems, sep)`. -/
def Join : List (List Char) → List Char → List Char
  | [], _ => []
  | [e], _ => e
  | e :: f :: more, sep => e ++ sep ++ Join (f :: more) sep

/-- The constant `RPrompt` of `measureContent`. -/
def RPrompt : List Char := "RPROMPT".toList

/-- The text `fmt.Sprintf("_%s", strings.Repeat(" ", 30))` of `measureContent`. -/
def promptFiller : List Char := '_' :: List.replicate 30 ' '

/-- The attribution appended by `measureContent`, without its two leading line
feeds: `ESC[1mhttps://ohmyposh.dev ESC[22m`. -/
def attribution : List Char :=
  (ESC :: "[1m".toList) ++ ("https://ohmyposh.dev".toList ++ (ESC :: "[22m".toList))

/-- Lines 206 to 218 of `measureContent`: whether the text holds the
cursor-save sequence is noted first, then the six replacements are made in
order, then the filler is appended when the cursor-save sequence was absent. -/
def measureContent_clean (ansiString : List Char) : List Char :=
  let hasRPrompt := Contains ansiString [ESC, '7']
  let s1 := ReplaceAll ansiString (ESC :: "[m".toList) (ESC :: "[0m".toList)
  let s2 := ReplaceAll s1 (ESC :: "[K".toList) []
  let s3 := ReplaceAll s2 [ESC, '7'] promptFiller
  let s4 := ReplaceAll s3 [ESC, '8'] []
  let s5 := ReplaceAll s4 (ESC :: "[1F".toList) []
  let s6 := ReplaceAll s5 (ESC :: "[1000C".toList) RPrompt
  if !hasRPrompt then s6 ++ promptFiller else s6

/-- Lines 220 to 225 of `measureContent`: two line feeds and the attribution
are appended, and the author between bold on and bold off when there is one. -/
def measureContent_attribution (author ansiString : List Char) : List Char :=
  let s1 := ansiString ++ ('\n' :: '\n' :: attribution)
  if author.length > 0 then
    s1 ++ (" by ".toList ++ ((ESC :: "[1m".toList) ++ (author ++ (ESC :: "[22m".toList))))
  else s1

/-- Lines 206 to 229 of `measureContent`, the preparation of the text: the
cleaning, the attribution, then line feeds are trimmed from both ends and one
line feed is put in front. -/
def measureContent_prepare (author ansiString : List Char) : List Char :=
  '\n' :: Trim (measureContent_attribution author (measureContent_clean ansiString)) '\n'

/-- Go `calculateWidth`, with the function `lenWithoutANSI` of the formats as
a parameter: the greatest length of a line. -/
def calculateWidth (lenWithoutANSI : List Char → Nat) (ansiString : List Char) : Nat :=
  (Split '\n' ansiString).foldl
    (fun longest line => if lenWithoutANSI line > longest then lenWithoutANSI line else longest) 0

/-- The significand of the `float64` constant `1.47`: the constant is
`6620291452234629 / 2^52`, the `float64` nearest to 1.47. -/
def float147 : Nat := 6620291452234629

/-- The number of binary digits of a number below `2^fuel`. -/
def bitLength : Nat → Nat → Nat
  | 0, _ => 0
  | fuel + 1, n => if n = 0 then 0 else bitLength fuel (n / 2) + 1

/-- The quotient `p / 2^shift` rounded to the nearest integer, a tie going to
the even one, as `float64` arithmetic rounds. -/
def roundHalfEven (p shift : Nat) : Nat :=
  let q := p / 2 ^ shift
  let r := p % 2 ^ shift
  if 2 * r > 2 ^ shift ∨ (2 * r = 2 ^ shift ∧ q % 2 = 1) then q + 1 else q

/-- The Go expression `int(float64(n) * 1.47)` for `0 ≤ n < 2^53`: the exact
product `n * float147 / 2^52` is rounded to 53 significant binary digits and
then truncated to an integer. -/
def mulFloat147 (n : Nat) : Nat :=
  let p := n * float147
  let bits := bitLength 128 p
  if bits ≤ 53 then p / 2 ^ 52
  else (roundHalfEven p (bits - 53) * 2 ^ (bits - 53)) / 2 ^ 52

/-- The Go expression `int(float64(n) * 1.47)` for an integer of either sign
below `2^53` in absolute value; the conversion to `int` truncates towards
zero. -/
def scaleLeftOver (n : Int) : Int :=
  if n < 0 then -(mulFloat147 n.natAbs : Int) else (mulFloat147 n.toNat : Int)

/-- The body of the loop over the lines in `measureContent` (lines 238 to
250): a line without the placeholder is kept; otherwise the first placeholder
of the line is replaced by spaces, seven of them when the line is at least as
long as the longest line, and `int(float64(linewidth - lineLength - 7) * 1.47)`
of them otherwise, seven being `len(RPrompt)`.  `strings.Repeat` panics on a
negative number. -/
def measureContent_line (lenWithoutANSI : List Char → Nat) (linewidth : Nat)
    (line : List Char) : Option (List Char) :=
  let rPromptLen : Nat := RPrompt.length
  if !Contains line RPrompt then some line
  else
    let lineLength := lenWithoutANSI line
    if lineLength ≥ linewidth then
      (Repeat [' '] rPromptLen).map fun spaces => ReplaceFirst line RPrompt spaces
    else
      let leftOverLength :=
        scaleLeftOver ((linewidth : Int) - (lineLength : Int) - (rPromptLen : Int))
      (Repeat [' '] leftOverLength).map fun spaces => ReplaceFirst line RPrompt spaces

/-- The loop over the lines in `measureContent`: a panic in one line aborts
the pass. -/
def measureContent_lines (lenWithoutANSI : List Char → Nat) (linewidth : Nat) :
    List (List Char) → Option (List (List Char))
  | [] => some []
  | line :: more =>
    match measureContent_line lenWithoutANSI linewidth line with
    | none => none
    | some l => (measureContent_lines lenWithoutANSI linewidth more).map fun ls => l :: ls

/-- Go `measureContent`, as far as the text is concerned: the returned width
and height come from font metrics and are left out.  The function
`lenWithoutANSI` of the formats, which is not part of `image.go`, and the
field `author` are parameters.  The result is `none` when `strings.Repeat`
panics. -/
def measureContent (lenWithoutANSI : List Char → Nat) (author : List Char)
    (s : ImageRenderer) : Option ImageRenderer :=
  let text := measureContent_prepare author s.ansiString
  let linewidth := calculateWidth lenWithoutANSI text
  (measureContent_lines lenWithoutANSI linewidth (Split '\n' text)).map fun ansiLines =>
    { s with ansiString := Join ansiLines ['\n'] }

/-- Modelled from the spec: the matcher `nextMatch` behind `lenWithoutANSI` is
not part of `image.go`.  It goes through the patterns in their priority order
and reports the first one that matches the start of the text. -/
def nextMatch (text : List Char) : Option Captures :=
  ansiSequenceRegexMap.findSome? fun e => findNamedRegexMatch e.2 text

/-- The scan of `lenWithoutANSI`, for at most as many steps as the first
argument says: a recognised sequence is discarded, any other character
counts. -/
def lenWithoutANSILoop : Nat → List Char → Nat
  | 0, _ => 0
  | _ + 1, [] => 0
  | n + 1, c :: cs =>
    match nextMatch (c :: cs) with
    | some m => lenWithoutANSILoop n (TrimPrefix (c :: cs) (m.get STR))
    | none => lenWithoutANSILoop n cs + 1

/-- Modelled from the spec: `lenWithoutANSI` is not part of `image.go`.  The
visible length of a line is the number of characters that remain when all
recognised escape sequences are matched and discarded; a placeholder counts as
the literal text that it is. -/
def lenWithoutANSI (text : List Char) : Nat :=
  lenWithoutANSILoop text.length text

/-! ## Notions used in the statements -/

/-- The sequences whose case in `shouldPrint` ends with `return false`: all
but `link`. -/
def returning : List String :=
  [invertedColor, invertedColorSingle, fullColor, foreground, reset, bold, italic, underline,
   boldReset, italicReset, underlineReset, strikethrough, strikethroughReset, left, osc99,
   lineChange, title, color16]

/-- The text `r;g;b` of three colour components written in decimal. -/
def rgbText (r g b : Nat) : List Char :=
  Sprint r ++ ';' :: (Sprint g ++ ';' :: Sprint b)

/-- The background sequence `ESC[48;2;r;g;bm`. -/
def bgSequence (r g b : Nat) : List Char :=
  (ESC :: "[48;2;".toList) ++ (rgbText r g b ++ ['m'])

/-- The foreground sequence `ESC[38;2;r;g;bm`. -/
def fgSequence (r g b : Nat) : List Char :=
  (ESC :: "[38;2;".toList) ++ (rgbText r g b ++ ['m'])

/-- The glyphs among the operations drawn: the string, its colour and the
colour of the rectangle under it, if any. -/
def drawnGlyphs : List DrawOp → List (List Char × RGB × Option RGB)
  | [] => []
  | .glyph str _ color background _ :: ops => (str, color, background) :: drawnGlyphs ops
  | .lineBreak _ :: ops => drawnGlyphs ops

/-- Whether `pat` occurs in a text before the first line feed of the text. -/
def containsInLine (pat : List Char) : List Char → Bool
  | [] => HasPrefix [] pat
  | c :: cs => HasPrefix (c :: cs) pat || (c != '\n' && containsInLine pat cs)

/-- The hyperlink terminator `ESC]8;;ESC\`. -/
def linkEnd : List Char := ESC :: ']' :: '8' :: ';' :: ';' :: ESC :: ['\\']

/-- The file-hyperlink wrapper around a link text. -/
def linkWrapper (path text : List Char) : List Char :=
  (ESC :: "]8;;file://".toList) ++ (path ++ (ESC :: '\\' :: (text ++ linkEnd)))

/-- The inverted-colour sequence with one code: `ESC[c;49m ESC[7m`. -/
def invertedSingleSequence (c : Nat) : List Char :=
  ESC :: '[' :: (Sprint c ++ (";49m".toList ++ (ESC :: "[7m".toList)))

/-- The part of the link pattern after the path: `ESC`, a backslash, the link
text and the terminator. -/
def linkTail : Re :=
  .cat (.lit [ESC, '\\']) (.cat (.group URL (.plus .dot)) (.lit linkEnd))

/-- The link pattern of the table:
`^(?P<STR>\x1b]8;;file:\/\/(.+)\x1b\\(?P<URL>.+)\x1b]8;;\x1b\\)`. -/
def linkPattern : Re :=
  .group STR (.cat (.lit (ESC :: "]8;;file://".toList)) (.cat (.plus .dot) linkTail))

/-- Whether every match of an expression starts by consuming the character
`c`: the expression begins with a literal that begins with `c`. -/
def Re.leads (c : Char) : Re → Bool
  | .lit l => l.head? == some c
  | .cls _ => false
  | .plus _ => false
  | .opt _ => false
  | .rep a n _ => n != 0 && a.leads c
  | .cat a _ => a.leads c
  | .group _ a => a.leads c

/-- Whether an expression is one group named `name` around an expression that
begins with the character `c`. -/
def Re.wholeGroup (name : String) (c : Char) : Re → Bool
  | .group n a => n == name && a.leads c
  | _ => false

/-- Number of positions of a text at which `pat` occurs. -/
def countOccurrences (pat : List Char) : List Char → Nat
  | [] => if HasPrefix [] pat then 1 else 0
  | c :: cs => (if HasPrefix (c :: cs) pat then 1 else 0) + countOccurrences pat cs

/-- The first match of an expression at a position, if any. -/
def Re.first (r : Re) (st : MState) : Option MState := (r.run st).head?

/-! ## The 16-colour codes -/

theorem setBase16Color_of_atoi (s : ImageRenderer) (colorStr : List Char) (c : Int)
    (h : Atoi colorStr = (c, false)) :
    setBase16Color s colorStr =
      if c < 40 ∨ (90 ≤ c ∧ c < 100) then
        { s with foregroundColor := some (base16Color s.defaultForegroundColor c) }
      else
        { s with backgroundColor := some (base16Color s.defaultForegroundColor c) } := by
  simp [setBase16Color, h]

/-- C1: for every state and every code `c` given to `setBase16Color` as a
decimal text that `Atoi` converts to `c`: when `c < 40` or `90 ≤ c < 100` the
foreground becomes the table colour of `c` and the background is unchanged;
otherwise the background becomes the table colour of `c` and the foreground is
unchanged.  In both cases the style (and the text, and the default colours)
stay as they were. -/
theorem setBase16Color_slot (s : ImageRenderer) (colorStr : List Char) (c : Int)
    (h : Atoi colorStr = (c, false)) :
    setBase16Color s colorStr =
      (if c < 40 ∨ (90 ≤ c ∧ c < 100) then
        { s with foregroundColor := some (base16Color s.defaultForegroundColor c) }
      else
        { s with backgroundColor := some (base16Color s.defaultForegroundColor c) }) ∧
    (setBase16Color s colorStr).foregroundColor =
      (if c < 40 ∨ (90 ≤ c ∧ c < 100) then some (base16Color s.defaultForegroundColor c)
       else s.foregroundColor) ∧
    (setBase16Color s colorStr).backgroundColor =
      (if c < 40 ∨ (90 ≤ c ∧ c < 100) then s.backgroundColor
       else some (base16Color s.defaultForegroundColor c)) ∧
    (setBase16Color s colorStr).style = s.style := by
  rw [setBase16Color_of_atoi s colorStr c h]
  refine ⟨rfl, ?_, ?_, ?_⟩ <;> split <;> rfl

theorem setBase16Color_slot_witness :
    Atoi "31".toList = (31, false) ∧
    setBase16Color (NewImageRenderer []) "31".toList =
      { NewImageRenderer [] with foregroundColor := some ⟨222, 56, 43⟩ } ∧
    Atoi "104".toList = (104, false) ∧
    setBase16Color (NewImageRenderer []) "104".toList =
      { NewImageRenderer [] with backgroundColor := some ⟨0, 0, 255⟩ } :=
  ⟨by decide, (setBase16Color_slot (NewImageRenderer []) "31".toList 31 (by decide)).1,
    by decide, (setBase16Color_slot (NewImageRenderer []) "104".toList 104 (by decide)).1⟩

theorem setBase16Color_pair_aux (s t : ImageRenderer) (c : Int)
    (h1 : Atoi (Sprint c) = (c, false)) (h2 : Atoi (Sprint (c + 10)) = (c + 10, false))
    (hc : c < 40 ∨ (90 ≤ c ∧ c < 100)) (hc2 : ¬ (c + 10 < 40 ∨ (90 ≤ c + 10 ∧ c + 10 < 100)))
    (hb : ∀ d e : RGB, base16Color d c = base16Color e (c + 10)) :
    (setBase16Color s (Sprint c)).foregroundColor =
      (setBase16Color t (Sprint (c + 10))).backgroundColor ∧
    (setBase16Color s (Sprint c)).foregroundColor =
      some (base16Color s.defaultForegroundColor c) ∧
    base16Color s.defaultForegroundColor c = base16Color t.defaultForegroundColor (c + 10) := by
  rw [setBase16Color_of_atoi s _ _ h1, setBase16Color_of_atoi t _ _ h2, if_pos hc, if_neg hc2]
  exact ⟨congrArg some (hb _ _), rfl, hb _ _⟩

/-- C2: for every foreground code `c` in 30..37 or 90..97, the colour that
`setBase16Color` stores in the foreground for the text of `c` is the colour it
stores in the background for the text of `c + 10`, whatever the two states
are; it is the table colour of `c`, and the table has the same entry for `c`
and for `c + 10`. -/
theorem setBase16Color_pair (s t : ImageRenderer) (c : Int)
    (h : (30 ≤ c ∧ c ≤ 37) ∨ (90 ≤ c ∧ c ≤ 97)) :
    (setBase16Color s (Sprint c)).foregroundColor =
      (setBase16Color t (Sprint (c + 10))).backgroundColor ∧
    (setBase16Color s (Sprint c)).foregroundColor =
      some (base16Color s.defaultForegroundColor c) ∧
    base16Color s.defaultForegroundColor c = base16Color t.defaultForegroundColor (c + 10) := by
  have hc : c = 30 ∨ c = 31 ∨ c = 32 ∨ c = 33 ∨ c = 34 ∨ c = 35 ∨ c = 36 ∨ c = 37 ∨
      c = 90 ∨ c = 91 ∨ c = 92 ∨ c = 93 ∨ c = 94 ∨ c = 95 ∨ c = 96 ∨ c = 97 := by omega
  rcases hc with h | h | h | h | h | h | h | h | h | h | h | h | h | h | h | h <;> subst h <;>
    exact setBase16Color_pair_aux s t _ (by decide) (by decide) (by decide) (by decide)
      (by intro d e; simp [base16Color])

theorem setBase16Color_pair_witness :
    (((30 : Int) ≤ 31 ∧ (31 : Int) ≤ 37) ∨ ((90 : Int) ≤ 31 ∧ (31 : Int) ≤ 97)) ∧
    ((setBase16Color (NewImageRenderer []) (Sprint 31)).foregroundColor =
      (setBase16Color (NewImageRenderer []) (Sprint (31 + 10))).backgroundColor ∧
    (setBase16Color (NewImageRenderer []) (Sprint 31)).foregroundColor =
      some (base16Color (NewImageRenderer []).defaultForegroundColor 31) ∧
    base16Color (NewImageRenderer []).defaultForegroundColor 31 =
      base16Color (NewImageRenderer []).defaultForegroundColor (31 + 10)) :=
  ⟨by decide, setBase16Color_pair (NewImageRenderer []) (NewImageRenderer []) 31 (by decide)⟩

/-! ## Traversal of the pattern table -/

theorem shouldPrint_skip (pre post : List (String × Re)) (s : ImageRenderer)
    (h : ∀ e ∈ pre, findNamedRegexMatch e.2 s.ansiString = none) :
    shouldPrint (pre ++ post) s = shouldPrint post s := by
  induction pre with
  | nil => rfl
  | cons e pre ih =>
    obtain ⟨k, r⟩ := e
    have h1 : findNamedRegexMatch r s.ansiString = none := h (k, r) (List.mem_cons_self _ _)
    simp only [List.cons_append, shouldPrint, h1]
    exact ih (fun e he => h e (List.mem_cons_of_mem _ he))

theorem shouldPrint_stop (k : String) (r : Re) (more : List (String × Re)) (s : ImageRenderer)
    (hk : k ∈ returning) (hm : findNamedRegexMatch r s.ansiString ≠ none) :
    shouldPrint ((k, r) :: more) s = shouldPrint [(k, r)] s := by
  cases hf : findNamedRegexMatch r s.ansiString with
  | none => exact absurd hf hm
  | some m =>
    simp only [returning, List.mem_cons, List.mem_singleton, List.not_mem_nil, or_false] at hk
    rcases hk with h | h | h | h | h | h | h | h | h | h | h | h | h | h | h | h | h | h <;>
      subst h <;> simp [shouldPrint, hf]

theorem shouldPrint_unique (order : List (String × Re)) (s : ImageRenderer) (k : String) (r : Re)
    (hk : k ∈ returning) (hmem : (k, r) ∈ order)
    (hm : findNamedRegexMatch r s.ansiString ≠ none)
    (hothers : ∀ e ∈ order, e = (k, r) ∨ findNamedRegexMatch e.2 s.ansiString = none) :
    shouldPrint order s = shouldPrint [(k, r)] s := by
  induction order with
  | nil => simp at hmem
  | cons e more ih =>
    rcases hothers e (List.mem_cons_self _ _) with he | he
    · subst he
      exact shouldPrint_stop k r more s hk hm
    · have hne : e ≠ (k, r) := by
        intro h; subst h; exact hm he
      have hmem1 : (k, r) ∈ more := by
        rcases List.mem_cons.1 hmem with h | h
        · exact absurd h.symm hne
        · exact h
      obtain ⟨k1, r1⟩ := e
      simp only [shouldPrint, he]
      exact ih hmem1 (fun e he => hothers e (List.mem_cons_of_mem _ he))

theorem shouldPrint_perm_unique (order : List (String × Re)) (s : ImageRenderer) (k : String)
    (r : Re) (horder : order.Perm ansiSequenceRegexMap) (hk : k ∈ returning)
    (hmem : (k, r) ∈ ansiSequenceRegexMap)
    (hm : findNamedRegexMatch r s.ansiString ≠ none)
    (hothers : ∀ e ∈ ansiSequenceRegexMap,
      e = (k, r) ∨ findNamedRegexMatch e.2 s.ansiString = none) :
    shouldPrint order s = shouldPrint [(k, r)] s :=
  shouldPrint_unique order s k r hk (horder.mem_iff.2 hmem) hm
    (fun e he => hothers e (horder.mem_iff.1 he))

theorem shouldPrint_perm_none (order : List (String × Re)) (s : ImageRenderer)
    (horder : order.Perm ansiSequenceRegexMap)
    (hnone : ∀ e ∈ ansiSequenceRegexMap, findNamedRegexMatch e.2 s.ansiString = none) :
    shouldPrint order s = some (true, s) := by
  have h := shouldPrint_skip order [] s (fun e he => hnone e (horder.mem_iff.1 he))
  rw [List.append_nil] at h
  rw [h, shouldPrint]

/-! ## The full reset -/

theorem reset_table (rest : List Char) :
    ∀ e ∈ ansiSequenceRegexMap, e = (reset, .group STR (.lit (ESC :: "[0m".toList))) ∨
      findNamedRegexMatch e.2 (ESC :: '[' :: '0' :: 'm' :: rest) = none := by
  simp [ansiSequenceRegexMap, findNamedRegexMatch, Re.run, HasPrefix, rgbFields, repRun,
    optRun, Cls.test, ESC, plusRun]

theorem shouldPrint_reset_aux (order : List (String × Re)) (s : ImageRenderer)
    (rest : List Char) (horder : order.Perm ansiSequenceRegexMap) :
    shouldPrint order { s with ansiString := ESC :: '[' :: '0' :: 'm' :: rest } =
      some (false, { s with ansiString := rest,
                            foregroundColor := some s.defaultForegroundColor,
                            backgroundColor := none }) := by
  rw [shouldPrint_perm_unique order _ reset (.group STR (.lit (ESC :: "[0m".toList))) horder
    (by decide) (by simp [ansiSequenceRegexMap])
    (by simp [findNamedRegexMatch, Re.run, HasPrefix]) (reset_table rest)]
  have hlen : rest.length + 1 + 1 + 1 + 1 - rest.length = 4 := by omega
  simp [shouldPrint, findNamedRegexMatch, Re.run, HasPrefix, Captures.get, TrimPrefix, STR,
    reset, invertedColor, invertedColorSingle, fullColor, foreground, hlen]

/-- C3: for every state whose default foreground colour is (255,255,255), as
`NewImageRenderer` sets it, every following text `rest` and every traversal
order of the pattern table, one `shouldPrint` step on `ESC[0m ++ rest` returns
false (do not print), leaves `rest`, sets the foreground to (255,255,255) and
the background to unset and keeps the style and every other field; the two
colours are constants, independent of the prior state; and a second reset
applied to the resulting state gives that state again. -/
theorem shouldPrint_reset (order order2 : List (String × Re)) (s : ImageRenderer)
    (rest : List Char) (horder : order.Perm ansiSequenceRegexMap)
    (horder2 : order2.Perm ansiSequenceRegexMap)
    (hdef : s.defaultForegroundColor = ⟨255, 255, 255⟩) :
    shouldPrint order { s with ansiString := ESC :: '[' :: '0' :: 'm' :: rest } =
      some (false, { s with ansiString := rest,
                            foregroundColor := some ⟨255, 255, 255⟩,
                            backgroundColor := none }) ∧
    shouldPrint order2
        { s with ansiString := ESC :: '[' :: '0' :: 'm' :: rest,
                 foregroundColor := some ⟨255, 255, 255⟩,
                 backgroundColor := none } =
      some (false, { s with ansiString := rest,
                            foregroundColor := some ⟨255, 255, 255⟩,
                            backgroundColor := none }) := by
  constructor
  · rw [shouldPrint_reset_aux order s rest horder, hdef]
  · refine (shouldPrint_reset_aux order2
      { s with foregroundColor := some ⟨255, 255, 255⟩, backgroundColor := none }
      rest horder2).trans ?_
    simp [hdef]

theorem shouldPrint_reset_witness :
    ansiSequenceRegexMap.Perm ansiSequenceRegexMap ∧
    ansiSequenceRegexMap.reverse.Perm ansiSequenceRegexMap ∧
    (NewImageRenderer []).defaultForegroundColor = ⟨255, 255, 255⟩ ∧
    (shouldPrint ansiSequenceRegexMap
        { NewImageRenderer [] with ansiString := ESC :: '[' :: '0' :: 'm' :: "abc".toList } =
      some (false, { NewImageRenderer [] with
                            ansiString := "abc".toList,
                            foregroundColor := some ⟨255, 255, 255⟩,
                            backgroundColor := none }) ∧
    shouldPrint ansiSequenceRegexMap.reverse
        { NewImageRenderer [] with
                 ansiString := ESC :: '[' :: '0' :: 'm' :: "abc".toList,
                 foregroundColor := some ⟨255, 255, 255⟩,
                 backgroundColor := none } =
      some (false, { NewImageRenderer [] with
                            ansiString := "abc".toList,
                            foregroundColor := some ⟨255, 255, 255⟩,
                            backgroundColor := none })) :=
  ⟨List.Perm.refl _, List.reverse_perm _, rfl,
    shouldPrint_reset ansiSequenceRegexMap ansiSequenceRegexMap.reverse (NewImageRenderer [])
      "abc".toList (List.Perm.refl _) (List.reverse_perm _) rfl⟩

/-! ## First matches of the backtracking matcher -/

theorem head?_flatMap_of {α β : Type} (l : List α) (f : α → List β) (x : α) (y : β)
    (h1 : l.head? = some x) (h2 : (f x).head? = some y) : (l.flatMap f).head? = some y := by
  cases l with
  | nil => simp at h1
  | cons a l =>
    simp only [List.head?_cons, Option.some.injEq] at h1
    subst h1
    simp [List.flatMap_cons, h2]

theorem hasPrefix_append (l t : List Char) : HasPrefix (l ++ t) l = true := by
  induction l with
  | nil => cases t <;> rfl
  | cons c l ih => simp [HasPrefix, ih]

theorem trimPrefix_append (l t : List Char) : TrimPrefix (l ++ t) l = t := by
  simp [TrimPrefix, hasPrefix_append]

theorem first_lit (l t : List Char) (c : Captures) :
    (Re.lit l).first (l ++ t, c) = some (t, c) := by
  simp [Re.first, Re.run, hasPrefix_append]

theorem first_cat (a b : Re) (st x y : MState) (h1 : a.first st = some x)
    (h2 : b.first x = some y) : (Re.cat a b).first st = some y := by
  simp only [Re.first, Re.run]
  exact head?_flatMap_of _ _ x y h1 h2

theorem first_group (name : String) (a : Re) (pre t : List Char) (c c1 : Captures)
    (h : a.first (pre ++ t, c) = some (t, c1)) :
    (Re.group name a).first (pre ++ t, c) = some (t, (name, pre) :: c1) := by
  simp only [Re.first] at h
  simp [Re.first, Re.run, h]

theorem first_opt_some (a : Re) (st x : MState) (h : a.first st = some x) :
    (Re.opt a).first st = some x := by
  simp only [Re.first] at h
  simp [Re.first, Re.run, h]

theorem first_opt_none (a : Re) (st : MState) (h : a.run st = []) :
    (Re.opt a).first st = some st := by
  simp [Re.first, Re.run, h]

theorem first_rep_zero (a : Re) (st : MState) : (Re.rep a 0 0).first st = some st := by
  simp [Re.first, Re.run, repRun, optRun]

theorem first_rep_succ (a : Re) (n k : Nat) (st x y : MState) (h1 : a.first st = some x)
    (h2 : (Re.rep a n k).first x = some y) : (Re.rep a (n + 1) k).first st = some y := by
  simp only [Re.first, Re.run, repRun] at *
  exact head?_flatMap_of _ _ x y h1 h2

theorem first_rep_more (a : Re) (k : Nat) (st x y : MState) (h1 : a.first st = some x)
    (h2 : (Re.rep a 0 k).first x = some y) : (Re.rep a 0 (k + 1)).first st = some y := by
  simp only [Re.first, Re.run, repRun, optRun] at *
  simp [head?_flatMap_of _ _ x y h1 h2]

theorem first_rep_stop (a : Re) (k : Nat) (st : MState) (h : a.run st = []) :
    (Re.rep a 0 (k + 1)).first st = some st := by
  simp [Re.first, Re.run, repRun, optRun, h]

theorem plusRun_head (p : Char → Bool) (ds t : List Char) (hne : ds ≠ [])
    (hds : ∀ d ∈ ds, p d = true) (ht : plusRun p t = []) :
    (plusRun p (ds ++ t)).head? = some t := by
  induction ds with
  | nil => exact absurd rfl hne
  | cons d ds ih =>
    have hd : p d = true := hds d (List.mem_cons_self _ _)
    cases ds with
    | nil => simp [plusRun, hd, ht]
    | cons e es =>
      have h := ih (by simp) (fun x hx => hds x (List.mem_cons_of_mem _ hx))
      have e1 : plusRun p (d :: (e :: es) ++ t) =
          plusRun p ((e :: es) ++ t) ++ [(e :: es) ++ t] := by
        simp [plusRun, hd]
      rw [e1, List.head?_append, h]
      rfl

theorem first_plus (p : Cls) (ds t : List Char) (c : Captures) (hne : ds ≠ [])
    (hds : ∀ d ∈ ds, p.test d = true) (ht : plusRun p.test t = []) :
    (Re.plus p).first (ds ++ t, c) = some (t, c) := by
  simp [Re.first, Re.run, plusRun_head p.test ds t hne hds ht]

/-- One field of `(\d+;?){3}` that is followed by a semicolon. -/
theorem first_field_semi (ds t : List Char) (c : Captures) (hne : ds ≠ [])
    (hds : ∀ d ∈ ds, d.isDigit = true) :
    (Re.cat (.plus .digit) (.opt (.lit [';']))).first (ds ++ ';' :: t, c) = some (t, c) := by
  refine first_cat _ _ _ (';' :: t, c) _ (first_plus .digit ds _ c hne hds ?_) ?_
  · simp [plusRun, Cls.test]
  · exact first_opt_some _ _ _ (first_lit [';'] t c)

/-- The last field of `(\d+;?){3}`, followed by a character other than a digit
and a semicolon. -/
theorem first_field_last (ds t : List Char) (x : Char) (c : Captures) (hne : ds ≠ [])
    (hds : ∀ d ∈ ds, d.isDigit = true) (hx : x.isDigit = false) (hx2 : x ≠ ';') :
    (Re.cat (.plus .digit) (.opt (.lit [';']))).first (ds ++ x :: t, c) = some (x :: t, c) := by
  refine first_cat _ _ _ (x :: t, c) _ (first_plus .digit ds _ c hne hds ?_) ?_
  · simp [plusRun, Cls.test, hx]
  · exact first_opt_none _ _ (by simp [Re.run, HasPrefix, hx2])

theorem first_rgbFields (d1 d2 d3 t : List Char) (x : Char) (c : Captures)
    (h1 : d1 ≠ []) (h2 : d2 ≠ []) (h3 : d3 ≠ [])
    (hd1 : ∀ d ∈ d1, d.isDigit = true) (hd2 : ∀ d ∈ d2, d.isDigit = true)
    (hd3 : ∀ d ∈ d3, d.isDigit = true) (hx : x.isDigit = false) (hx2 : x ≠ ';') :
    rgbFields.first (d1 ++ ';' :: (d2 ++ ';' :: (d3 ++ x :: t)), c) = some (x :: t, c) :=
  first_rep_succ _ _ _ _ _ _ (first_field_semi d1 _ c h1 hd1)
    (first_rep_succ _ _ _ _ _ _ (first_field_semi d2 _ c h2 hd2)
      (first_rep_succ _ _ _ _ _ _ (first_field_last d3 t x c h3 hd3 hx hx2)
        (first_rep_zero _ _)))

/-! ## Decimal texts -/

theorem split_no_sep (sep : Char) (d : List Char) (h : ∀ c ∈ d, c ≠ sep) :
    Split sep d = [d] := by
  induction d with
  | nil => rfl
  | cons c d ih =>
    have hc : c ≠ sep := h c (List.mem_cons_self _ _)
    simp [Split, hc, ih (fun x hx => h x (List.mem_cons_of_mem _ hx))]

theorem split_append_sep (sep : Char) (d t : List Char) (h : ∀ c ∈ d, c ≠ sep) :
    Split sep (d ++ sep :: t) = d :: Split sep t := by
  induction d with
  | nil => simp [Split]
  | cons c d ih =>
    have hc : c ≠ sep := h c (List.mem_cons_self _ _)
    simp [Split, hc, ih (fun x hx => h x (List.mem_cons_of_mem _ hx))]

theorem digit_ne_semi (c : Char) (h : c.isDigit = true) : c ≠ ';' := by
  intro hc
  subst hc
  exact absurd h (by decide)

theorem newRGBColor_fields (d1 d2 d3 : List Char)
    (hd1 : ∀ d ∈ d1, d.isDigit = true) (hd2 : ∀ d ∈ d2, d.isDigit = true)
    (hd3 : ∀ d ∈ d3, d.isDigit = true) :
    NewRGBColor (d1 ++ ';' :: (d2 ++ ';' :: d3)) =
      some ⟨(Atoi d1).1, (Atoi d2).1, (Atoi d3).1⟩ := by
  simp [NewRGBColor, split_append_sep ';' d1 _ (fun c hc => digit_ne_semi c (hd1 c hc)),
    split_append_sep ';' d2 _ (fun c hc => digit_ne_semi c (hd2 c hc)),
    split_no_sep ';' d3 (fun c hc => digit_ne_semi c (hd3 c hc))]

theorem digit_ne (x y : Char) (hx : x.isDigit = true) (hy : y.isDigit = false) : x ≠ y := by
  intro h
  subst h
  rw [hx] at hy
  exact absurd hy (by decide)

theorem toDigitsCore_append (fuel : Nat) :
    ∀ (n : Nat) (ds : List Char),
      Nat.toDigitsCore 10 fuel n ds = Nat.toDigitsCore 10 fuel n [] ++ ds := by
  induction fuel with
  | zero => intro n ds; simp [Nat.toDigitsCore]
  | succ fuel ih =>
    intro n ds
    simp only [Nat.toDigitsCore]
    split
    · simp
    · rw [ih (n / 10) (Nat.digitChar (n % 10) :: ds), ih (n / 10) [Nat.digitChar (n % 10)]]
      simp

theorem toDigitsCore_fuel (fuel1 : Nat) :
    ∀ (fuel2 n : Nat), n < fuel1 → n < fuel2 →
      Nat.toDigitsCore 10 fuel1 n [] = Nat.toDigitsCore 10 fuel2 n [] := by
  induction fuel1 with
  | zero => intro fuel2 n h; omega
  | succ fuel1 ih =>
    intro fuel2 n h1 h2
    cases fuel2 with
    | zero => omega
    | succ fuel2 =>
      simp only [Nat.toDigitsCore]
      split
      · rfl
      · rw [toDigitsCore_append fuel1, toDigitsCore_append fuel2,
          ih fuel2 (n / 10) (by omega) (by omega)]

/-- The decimal text of a number: one digit below ten, otherwise the text of
the tens followed by the last digit. -/
theorem toDigits_rec (n : Nat) :
    Nat.toDigits 10 n =
      if n < 10 then [Nat.digitChar n]
      else Nat.toDigits 10 (n / 10) ++ [Nat.digitChar (n % 10)] := by
  have step : Nat.toDigits 10 n =
      if n / 10 = 0 then [Nat.digitChar (n % 10)]
      else Nat.toDigitsCore 10 n (n / 10) [Nat.digitChar (n % 10)] := rfl
  rw [step]
  by_cases h10 : n < 10
  · have e1 : n / 10 = 0 := by omega
    have e2 : n % 10 = n := by omega
    simp [h10, e1, e2]
  · have e1 : ¬ (n / 10 = 0) := by omega
    rw [if_neg e1, if_neg h10, toDigitsCore_append,
      toDigitsCore_fuel n (n / 10 + 1) (n / 10) (by omega) (by omega)]
    rfl

theorem digitChar_isDigit (d : Nat) (h : d < 10) :
    (Nat.digitChar d).isDigit = true ∧ (Nat.digitChar d).toNat - 48 = d := by
  have : d = 0 ∨ d = 1 ∨ d = 2 ∨ d = 3 ∨ d = 4 ∨ d = 5 ∨ d = 6 ∨ d = 7 ∨ d = 8 ∨ d = 9 := by
    omega
  rcases this with h | h | h | h | h | h | h | h | h | h <;> subst h <;> decide

theorem toDigits_digits (n : Nat) : ∀ c ∈ Nat.toDigits 10 n, c.isDigit = true := by
  induction n using Nat.strong_induction_on with
  | _ n ih =>
    rw [toDigits_rec]
    split
    · intro c hc
      simp only [List.mem_singleton] at hc
      subst hc
      exact (digitChar_isDigit n (by omega)).1
    · intro c hc
      rcases List.mem_append.1 hc with h | h
      · exact ih (n / 10) (by omega) c h
      · simp only [List.mem_singleton] at h
        subst h
        exact (digitChar_isDigit (n % 10) (by omega)).1

theorem toDigits_ne_nil (n : Nat) : Nat.toDigits 10 n ≠ [] := by
  rw [toDigits_rec]
  split <;> simp

theorem parseUintLoop_append (xs ys : List Char) :
    ∀ acc : Nat, parseUintLoop (xs ++ ys) acc =
      match parseUintLoop xs acc with
      | .ok m => parseUintLoop ys m
      | .syntaxErr => .syntaxErr
      | .rangeErr => .rangeErr := by
  induction xs with
  | nil => intro acc; rfl
  | cons x xs ih =>
    intro acc
    simp only [List.cons_append, parseUintLoop]
    split
    · split
      · rfl
      · split
        · rfl
        · exact ih _
    · rfl

theorem parseUintLoop_toDigits (n : Nat) (h : n < 2 ^ 64) :
    parseUintLoop (Nat.toDigits 10 n) 0 = .ok n := by
  induction n using Nat.strong_induction_on with
  | _ n ih =>
    rw [toDigits_rec]
    split
    · rename_i h10
      obtain ⟨d1, d2⟩ := digitChar_isDigit n h10
      simp only [parseUintLoop, d1, d2, if_true]
      rw [if_neg (by omega), if_neg (by omega)]
      simp
    · rename_i h10
      obtain ⟨d1, d2⟩ := digitChar_isDigit (n % 10) (by omega)
      rw [parseUintLoop_append, ih (n / 10) (by omega) (by omega)]
      simp only [parseUintLoop, d1, d2, if_true]
      rw [if_neg (by omega), if_neg (by omega)]
      congr 1
      omega

theorem atoi_digits (ds : List Char) (n : Nat) (hne : ds ≠ [])
    (hds : ∀ c ∈ ds, c.isDigit = true) (hp : parseUintLoop ds 0 = .ok n) (hn : n < 2 ^ 63) :
    Atoi ds = ((n : Int), false) := by
  obtain ⟨c, cs, rfl⟩ := List.exists_cons_of_ne_nil hne
  have hc := hds c (List.mem_cons_self _ _)
  have h1 : (c == '-') = false := by
    simpa using digit_ne c '-' hc (by decide)
  have h2 : (c == '+') = false := by
    simpa using digit_ne c '+' hc (by decide)
  have h3 : (2 : Nat) ^ 63 = 9223372036854775808 := by norm_num
  simp [Atoi, h1, h2, hp]
  omega

/-- Printing a 64-bit integer and converting the text back gives the integer,
without error. -/
theorem atoi_sprint (c : Int) (hlo : -(2 ^ 63 : Int) ≤ c) (hhi : c < 2 ^ 63) :
    Atoi (Sprint c) = (c, false) := by
  by_cases hneg : c < 0
  · have hp := parseUintLoop_toDigits c.natAbs (by omega)
    have hne := toDigits_ne_nil c.natAbs
    have h3 : ¬ (9223372036854775808 < c.natAbs) := by omega
    have h4 : -|c| = c := by
      rw [abs_of_neg hneg]
      omega
    simp [Sprint, hneg, Atoi, hp, hne, h3, h4]
  · have e : Sprint c = Nat.toDigits 10 c.toNat := by simp [Sprint, hneg]
    rw [e, atoi_digits _ c.toNat (toDigits_ne_nil _) (toDigits_digits _)
      (parseUintLoop_toDigits _ (by omega)) (by omega)]
    congr 1
    omega

theorem sprint_nat (n : Nat) : Sprint (n : Int) = Nat.toDigits 10 n := by
  simp [Sprint]

theorem sprint_byte (n : Nat) (h : n ≤ 255) :
    Sprint (n : Int) ≠ [] ∧ (∀ d ∈ Sprint (n : Int), d.isDigit = true) ∧
      Atoi (Sprint (n : Int)) = ((n : Int), false) := by
  refine ⟨?_, ?_, atoi_sprint n (by omega) (by omega)⟩
  · rw [sprint_nat]
    exact toDigits_ne_nil n
  · rw [sprint_nat]
    exact toDigits_digits n

theorem sprint_code (n : Nat) (h1 : 10 ≤ n) (h2 : n ≤ 999) :
    ((∃ a b, Sprint (n : Int) = [a, b] ∧ a.isDigit = true ∧ b.isDigit = true) ∨
     (∃ a b c, Sprint (n : Int) = [a, b, c] ∧ a.isDigit = true ∧ b.isDigit = true ∧
        c.isDigit = true)) ∧
    Atoi (Sprint (n : Int)) = ((n : Int), false) ∧
    Atoi (Sprint ((n : Int) + 10)) = ((n : Int) + 10, false) := by
  refine ⟨?_, atoi_sprint n (by omega) (by omega), atoi_sprint _ (by omega) (by omega)⟩
  have hd := toDigits_digits n
  rw [sprint_nat]
  by_cases h100 : n < 100
  · left
    have e : Nat.toDigits 10 n = [Nat.digitChar (n / 10), Nat.digitChar (n % 10)] := by
      rw [toDigits_rec n, if_neg (by omega), toDigits_rec (n / 10), if_pos (by omega)]
      rfl
    rw [e] at hd ⊢
    exact ⟨_, _, rfl, hd _ (by simp), hd _ (by simp)⟩
  · right
    have e : Nat.toDigits 10 n =
        [Nat.digitChar (n / 10 / 10), Nat.digitChar (n / 10 % 10), Nat.digitChar (n % 10)] := by
      rw [toDigits_rec n, if_neg (by omega), toDigits_rec (n / 10), if_neg (by omega),
        toDigits_rec (n / 10 / 10), if_pos (by omega)]
      rfl
    rw [e] at hd ⊢
    exact ⟨_, _, _, rfl, hd _ (by simp), hd _ (by simp), hd _ (by simp)⟩

/-! ## The RGB sequences -/

theorem isDigit_m : 'm'.isDigit = false := by decide

/-- A literal, three decimal fields captured under `name`, and a closing `m`. -/
theorem first_rgbSeq (l : List Char) (name : String) (d1 d2 d3 t : List Char) (c : Captures)
    (h1 : d1 ≠ []) (h2 : d2 ≠ []) (h3 : d3 ≠ [])
    (hd1 : ∀ d ∈ d1, d.isDigit = true) (hd2 : ∀ d ∈ d2, d.isDigit = true)
    (hd3 : ∀ d ∈ d3, d.isDigit = true) :
    (Re.cat (.lit l) (.cat (.group name rgbFields) (.lit ['m']))).first
        (l ++ ((d1 ++ ';' :: (d2 ++ ';' :: d3)) ++ 'm' :: t), c) =
      some (t, (name, d1 ++ ';' :: (d2 ++ ';' :: d3)) :: c) := by
  refine first_cat _ _ _ _ _ (first_lit l _ c) ?_
  refine first_cat _ _ _ ('m' :: t, (name, d1 ++ ';' :: (d2 ++ ';' :: d3)) :: c) _ ?_ ?_
  · refine first_group name rgbFields _ ('m' :: t) c c ?_
    have h := first_rgbFields d1 d2 d3 t 'm' c h1 h2 h3 hd1 hd2 hd3 isDigit_m (by decide)
    simpa [List.append_assoc] using h
  · exact first_lit ['m'] t _

theorem fullColor_first (a1 a2 a3 b1 b2 b3 rest : List Char)
    (ha1 : a1 ≠ []) (ha2 : a2 ≠ []) (ha3 : a3 ≠ [])
    (hb1 : b1 ≠ []) (hb2 : b2 ≠ []) (hb3 : b3 ≠ [])
    (hda1 : ∀ d ∈ a1, d.isDigit = true) (hda2 : ∀ d ∈ a2, d.isDigit = true)
    (hda3 : ∀ d ∈ a3, d.isDigit = true) (hdb1 : ∀ d ∈ b1, d.isDigit = true)
    (hdb2 : ∀ d ∈ b2, d.isDigit = true) (hdb3 : ∀ d ∈ b3, d.isDigit = true) :
    findNamedRegexMatch
        (.group STR (.cat
          (.cat (.lit (ESC :: "[48;2;".toList)) (.cat (.group BG rgbFields) (.lit ['m'])))
          (.cat (.lit (ESC :: "[38;2;".toList)) (.cat (.group FG rgbFields) (.lit ['m'])))))
        ((((ESC :: "[48;2;".toList) ++ ((a1 ++ ';' :: (a2 ++ ';' :: a3)) ++ ['m'])) ++
          ((ESC :: "[38;2;".toList) ++ ((b1 ++ ';' :: (b2 ++ ';' :: b3)) ++ ['m']))) ++ rest) =
      some [(STR, ((ESC :: "[48;2;".toList) ++ ((a1 ++ ';' :: (a2 ++ ';' :: a3)) ++ ['m'])) ++
              ((ESC :: "[38;2;".toList) ++ ((b1 ++ ';' :: (b2 ++ ';' :: b3)) ++ ['m']))),
            (FG, b1 ++ ';' :: (b2 ++ ';' :: b3)), (BG, a1 ++ ';' :: (a2 ++ ';' :: a3))] := by
  have e1 := first_rgbSeq (ESC :: "[48;2;".toList) BG a1 a2 a3
    ((ESC :: "[38;2;".toList) ++ ((b1 ++ ';' :: (b2 ++ ';' :: b3)) ++ 'm' :: rest)) []
    ha1 ha2 ha3 hda1 hda2 hda3
  have e2 := first_rgbSeq (ESC :: "[38;2;".toList) FG b1 b2 b3 rest
    [(BG, a1 ++ ';' :: (a2 ++ ';' :: a3))] hb1 hb2 hb3 hdb1 hdb2 hdb3
  have e3 := first_cat _ _ _ _ _ e1 e2
  have e4 := first_group STR _
    (((ESC :: "[48;2;".toList) ++ ((a1 ++ ';' :: (a2 ++ ';' :: a3)) ++ ['m'])) ++
      ((ESC :: "[38;2;".toList) ++ ((b1 ++ ';' :: (b2 ++ ';' :: b3)) ++ ['m']))) rest [] _
    (by simpa [List.append_assoc] using e3)
  exact congrArg (Option.map fun st => st.2) e4

theorem fullColor_table (t : List Char) :
    ∀ e ∈ ansiSequenceRegexMap,
      e = (fullColor, .group STR (.cat
          (.cat (.lit (ESC :: "[48;2;".toList)) (.cat (.group BG rgbFields) (.lit ['m'])))
          (.cat (.lit (ESC :: "[38;2;".toList)) (.cat (.group FG rgbFields) (.lit ['m']))))) ∨
      findNamedRegexMatch e.2 (ESC :: '[' :: '4' :: '8' :: ';' :: '2' :: ';' :: t) = none := by
  intro e he
  simp only [ansiSequenceRegexMap, List.mem_cons, List.mem_singleton, List.not_mem_nil,
    or_false] at he
  rcases he with h | h | h | h | h | h | h | h | h | h | h | h | h | h | h | h | h | h | h <;>
    subst h <;>
    first
      | exact Or.inl rfl
      | (right
         simp [findNamedRegexMatch, Re.run, HasPrefix, repRun, optRun, Cls.test, ESC, plusRun])

theorem shouldPrint_fullColor_aux (order : List (String × Re)) (s : ImageRenderer)
    (r g b r2 g2 b2 : Nat) (rest : List Char) (horder : order.Perm ansiSequenceRegexMap)
    (hr : r ≤ 255) (hg : g ≤ 255) (hb : b ≤ 255)
    (hr2 : r2 ≤ 255) (hg2 : g2 ≤ 255) (hb2 : b2 ≤ 255) :
    shouldPrint order
        { s with ansiString := bgSequence r g b ++ (fgSequence r2 g2 b2 ++ rest) } =
      some (false, { s with ansiString := rest,
                            foregroundColor := some ⟨r2, g2, b2⟩,
                            backgroundColor := some ⟨r, g, b⟩ }) := by
  obtain ⟨n1, d1, v1⟩ := sprint_byte r hr
  obtain ⟨n2, d2, v2⟩ := sprint_byte g hg
  obtain ⟨n3, d3, v3⟩ := sprint_byte b hb
  obtain ⟨m1, e1, w1⟩ := sprint_byte r2 hr2
  obtain ⟨m2, e2, w2⟩ := sprint_byte g2 hg2
  obtain ⟨m3, e3, w3⟩ := sprint_byte b2 hb2
  have hfind := fullColor_first (Sprint r) (Sprint g) (Sprint b) (Sprint r2) (Sprint g2)
    (Sprint b2) rest n1 n2 n3 m1 m2 m3 d1 d2 d3 e1 e2 e3
  have hT : bgSequence r g b ++ (fgSequence r2 g2 b2 ++ rest) =
      (bgSequence r g b ++ fgSequence r2 g2 b2) ++ rest := (List.append_assoc _ _ _).symm
  have hfind2 : findNamedRegexMatch
        (.group STR (.cat
          (.cat (.lit (ESC :: "[48;2;".toList)) (.cat (.group BG rgbFields) (.lit ['m'])))
          (.cat (.lit (ESC :: "[38;2;".toList)) (.cat (.group FG rgbFields) (.lit ['m'])))))
        (bgSequence r g b ++ (fgSequence r2 g2 b2 ++ rest)) =
      some [(STR, bgSequence r g b ++ fgSequence r2 g2 b2),
            (FG, rgbText r2 g2 b2), (BG, rgbText r g b)] := by
    rw [hT]
    exact hfind
  rw [shouldPrint_perm_unique order _ fullColor _ horder (by decide)
    (by simp [ansiSequenceRegexMap]) (by rw [hfind2]; simp) (fullColor_table _)]
  simp only [shouldPrint, hfind2]
  have c1 : NewRGBColor (rgbText r g b) = some ⟨r, g, b⟩ := by
    rw [rgbText, newRGBColor_fields _ _ _ d1 d2 d3, v1, v2, v3]
  have c2 : NewRGBColor (rgbText r2 g2 b2) = some ⟨r2, g2, b2⟩ := by
    rw [rgbText, newRGBColor_fields _ _ _ e1 e2 e3, w1, w2, w3]
  have hs : TrimPrefix (bgSequence r g b ++ (fgSequence r2 g2 b2 ++ rest))
      (bgSequence r g b ++ fgSequence r2 g2 b2) = rest := by
    rw [hT, trimPrefix_append]
  simp [Captures.get, STR, FG, BG, fullColor, invertedColor, invertedColorSingle, c1, c2, hs]

/-! ## Printable characters -/

theorem noEsc_table (c : Char) (t : List Char) (hc : c ≠ ESC) :
    ∀ e ∈ ansiSequenceRegexMap, findNamedRegexMatch e.2 (c :: t) = none := by
  intro e he
  simp only [ansiSequenceRegexMap, List.mem_cons, List.mem_singleton, List.not_mem_nil,
    or_false] at he
  rcases he with h | h | h | h | h | h | h | h | h | h | h | h | h | h | h | h | h | h | h <;>
    subst h <;>
    simp [findNamedRegexMatch, Re.run, HasPrefix, repRun, optRun, hc]

theorem shouldPrint_noEsc (order : List (String × Re)) (s : ImageRenderer) (c : Char)
    (t : List Char) (horder : order.Perm ansiSequenceRegexMap) (hc : c ≠ ESC) :
    shouldPrint order { s with ansiString := c :: t } =
      some (true, { s with ansiString := c :: t }) :=
  shouldPrint_perm_none order _ horder (noEsc_table c t hc)

theorem correctString_lineFeed (c : Char) : correctString [c] = ['\n'] ↔ c = '\n' := by
  constructor
  · intro h
    unfold correctString at h
    split_ifs at h <;> first | exact absurd h (by decide) | simpa using h
  · intro h
    subst h
    decide

theorem loop_print (orders : Nat → List (String × Re)) (fuel : Nat) (s : ImageRenderer)
    (c : Char) (t : List Char) (ops : List DrawOp)
    (horder : (orders fuel).Perm ansiSequenceRegexMap) (hc : c ≠ ESC) :
    SavePNG_loop orders (fuel + 1) { s with ansiString := c :: t } ops =
      SavePNG_loop orders fuel { s with ansiString := t } (ops ++ [drawRune s c]) := by
  rw [SavePNG_loop]
  simp only [shouldPrint_noEsc (orders fuel) s c t horder hc]
  simp [drawRune]

theorem loop_chars (orders : Nat → List (String × Re))
    (horders : ∀ k, (orders k).Perm ansiSequenceRegexMap) (t : List Char)
    (ht : ∀ c ∈ t, c ≠ ESC) :
    ∀ (fuel : Nat) (s : ImageRenderer) (suffix : List Char) (ops : List DrawOp),
      SavePNG_loop orders (fuel + t.length) { s with ansiString := t ++ suffix } ops =
        SavePNG_loop orders fuel { s with ansiString := suffix } (ops ++ t.map (drawRune s)) := by
  induction t with
  | nil => intro fuel s suffix ops; simp
  | cons c t ih =>
    intro fuel s suffix ops
    have h1 := loop_print orders (fuel + t.length) s c (t ++ suffix) ops (horders _)
      (ht c (List.mem_cons_self _ _))
    have h2 := ih (fun x hx => ht x (List.mem_cons_of_mem _ hx)) fuel s suffix
      (ops ++ [drawRune s c])
    simp only [List.length_cons, List.cons_append, List.map_cons]
    rw [← Nat.add_assoc, h1, h2, List.append_assoc]
    rfl

theorem loop_empty (orders : Nat → List (String × Re)) (fuel : Nat) (s : ImageRenderer)
    (ops : List DrawOp) (h : s.ansiString = []) :
    SavePNG_loop orders fuel s ops = .done s ops := by
  cases fuel <;> simp [SavePNG_loop, h]

theorem loop_skip (orders : Nat → List (String × Re)) (fuel : Nat) (s s1 : ImageRenderer)
    (ops : List DrawOp) (hne : s.ansiString ≠ [])
    (h : shouldPrint (orders fuel) s = some (false, s1)) :
    SavePNG_loop orders (fuel + 1) s ops = SavePNG_loop orders fuel s1 ops := by
  rw [SavePNG_loop]
  simp [hne, h]

/-- C4: for every state, every traversal order, all colour components up to
255 written in decimal and every following text `rest`, one `shouldPrint` step
on `ESC[48;2;r;g;bm ESC[38;2;r2;g2;b2m ++ rest` returns false, leaves `rest`,
sets the foreground to `(r2,g2,b2)` and the background to `(r,g,b)` and keeps
the style and every other field.  When the sequences are followed by one
character other than the escape character and the line feed, the loop of
`SavePNG`, given two rounds or more, draws that character (as `correctString`
gives it) in the colour `(r2,g2,b2)` over a rectangle of the colour
`(r,g,b)`. -/
theorem shouldPrint_fullColor (order : List (String × Re)) (orders : Nat → List (String × Re))
    (s : ImageRenderer) (r g b r2 g2 b2 : Nat) (rest : List Char) (x : Char) (fuel : Nat)
    (horder : order.Perm ansiSequenceRegexMap)
    (horders : ∀ k, (orders k).Perm ansiSequenceRegexMap)
    (hr : r ≤ 255) (hg : g ≤ 255) (hb : b ≤ 255)
    (hr2 : r2 ≤ 255) (hg2 : g2 ≤ 255) (hb2 : b2 ≤ 255)
    (hx : x ≠ ESC) (hx2 : x ≠ '\n') (hfuel : 2 ≤ fuel) :
    shouldPrint order
        { s with ansiString := bgSequence r g b ++ (fgSequence r2 g2 b2 ++ rest) } =
      some (false, { s with ansiString := rest,
                            foregroundColor := some ⟨r2, g2, b2⟩,
                            backgroundColor := some ⟨r, g, b⟩ }) ∧
    SavePNG_loop orders fuel
        { s with ansiString := bgSequence r g b ++ (fgSequence r2 g2 b2 ++ [x]) } [] =
      .done { s with ansiString := [],
                     foregroundColor := some ⟨r2, g2, b2⟩,
                     backgroundColor := some ⟨r, g, b⟩ }
        [.glyph (correctString [x]) (fontFace s.style) ⟨r2, g2, b2⟩ (some ⟨r, g, b⟩)
          (s.style = underline)] := by
  refine ⟨shouldPrint_fullColor_aux order s r g b r2 g2 b2 rest horder hr hg hb hr2 hg2 hb2, ?_⟩
  obtain ⟨k, rfl⟩ : ∃ k, fuel = (k + 1) + 1 := ⟨fuel - 2, by omega⟩
  have h1 := shouldPrint_fullColor_aux (orders (k + 1)) s r g b r2 g2 b2 [x] (horders _)
    hr hg hb hr2 hg2 hb2
  rw [loop_skip orders (k + 1) _ _ [] (by simp [bgSequence]) h1]
  have h2 := loop_print orders k
    { s with foregroundColor := some ⟨r2, g2, b2⟩, backgroundColor := some ⟨r, g, b⟩ }
    x [] [] (horders k) hx
  refine h2.trans ?_
  have hlf : correctString [x] ≠ ['\n'] := fun h => hx2 ((correctString_lineFeed x).1 h)
  rw [loop_empty orders k _ _ rfl]
  simp [drawRune, hlf]

theorem shouldPrint_fullColor_witness :
    ansiSequenceRegexMap.Perm ansiSequenceRegexMap ∧
    (∀ k : Nat, ((fun _ => ansiSequenceRegexMap) k).Perm ansiSequenceRegexMap) ∧
    10 ≤ 255 ∧ 20 ≤ 255 ∧ 30 ≤ 255 ∧ 200 ≤ 255 ∧ 'X' ≠ ESC ∧ 'X' ≠ '\n' ∧ 2 ≤ 2 ∧
    shouldPrint ansiSequenceRegexMap
        { NewImageRenderer [] with
          ansiString := bgSequence 10 20 30 ++ (fgSequence 200 200 200 ++ ['X']) } =
      some (false, { NewImageRenderer [] with
                            ansiString := ['X'],
                            foregroundColor := some ⟨200, 200, 200⟩,
                            backgroundColor := some ⟨10, 20, 30⟩ }) ∧
    SavePNG_loop (fun _ => ansiSequenceRegexMap) 2
        { NewImageRenderer [] with
          ansiString := bgSequence 10 20 30 ++ (fgSequence 200 200 200 ++ ['X']) } [] =
      .done { NewImageRenderer [] with
                     ansiString := [],
                     foregroundColor := some ⟨200, 200, 200⟩,
                     backgroundColor := some ⟨10, 20, 30⟩ }
        [.glyph ['X'] Face.regular ⟨200, 200, 200⟩ (some ⟨10, 20, 30⟩) false] :=
  ⟨List.Perm.refl _, fun _ => List.Perm.refl _, by decide, by decide, by decide, by decide,
    by decide, by decide, by decide,
    shouldPrint_fullColor ansiSequenceRegexMap (fun _ => ansiSequenceRegexMap)
      (NewImageRenderer []) 10 20 30 200 200 200 ['X'] 'X' 2 (List.Perm.refl _)
      (fun _ => List.Perm.refl _) (by decide) (by decide) (by decide) (by decide) (by decide)
      (by decide) (by decide) (by decide) (by decide)⟩

/-! ## A red text -/

theorem red_table (t : List Char) :
    ∀ e ∈ ansiSequenceRegexMap,
      e = (color16, .group STR (.cat (.lit [ESC, '['])
            (.cat (.group FG (.rep (.cls .digit) 2 1)) (.lit ['m'])))) ∨
      findNamedRegexMatch e.2 (ESC :: '[' :: '3' :: '1' :: 'm' :: t) = none := by
  intro e he
  simp only [ansiSequenceRegexMap, List.mem_cons, List.mem_singleton, List.not_mem_nil,
    or_false] at he
  rcases he with h | h | h | h | h | h | h | h | h | h | h | h | h | h | h | h | h | h | h <;>
    subst h <;>
    first
      | exact Or.inl rfl
      | (right
         simp [findNamedRegexMatch, Re.run, HasPrefix, repRun, optRun, Cls.test, ESC, plusRun])

theorem red_find (t : List Char) :
    findNamedRegexMatch (.group STR (.cat (.lit [ESC, '['])
        (.cat (.group FG (.rep (.cls .digit) 2 1)) (.lit ['m']))))
      (ESC :: '[' :: '3' :: '1' :: 'm' :: t) =
      some [(STR, [ESC, '[', '3', '1', 'm']), (FG, ['3', '1'])] := by
  have h1 : t.length + 1 + 1 + 1 - (t.length + 1) = 2 := by omega
  have h2 : t.length + 1 + 1 + 1 + 1 + 1 - t.length = 5 := by omega
  simp [findNamedRegexMatch, Re.run, HasPrefix, repRun, optRun, Cls.test, h1, h2]

theorem shouldPrint_red (order : List (String × Re)) (s : ImageRenderer) (t : List Char)
    (horder : order.Perm ansiSequenceRegexMap) :
    shouldPrint order { s with ansiString := ESC :: '[' :: '3' :: '1' :: 'm' :: t } =
      some (false, { s with ansiString := t, foregroundColor := some ⟨222, 56, 43⟩ }) := by
  rw [shouldPrint_perm_unique order _ color16 _ horder (by decide)
    (by simp [ansiSequenceRegexMap]) (by rw [red_find]; simp) (red_table t)]
  simp only [shouldPrint, red_find]
  have ha : Atoi ['3', '1'] = (31, false) := by decide
  have hs : TrimPrefix (ESC :: '[' :: '3' :: '1' :: 'm' :: t) [ESC, '[', '3', '1', 'm'] = t :=
    trimPrefix_append [ESC, '[', '3', '1', 'm'] t
  simp [Captures.get, STR, FG, color16, invertedColor, invertedColorSingle, fullColor,
    foreground, reset, bold, italic, underline, boldReset, italicReset, underlineReset,
    strikethrough, strikethroughReset, left, osc99, lineChange, title, hs,
    setBase16Color_of_atoi _ _ 31 ha, base16Color]

theorem drawnGlyphs_append (a b : List DrawOp) :
    drawnGlyphs (a ++ b) = drawnGlyphs a ++ drawnGlyphs b := by
  induction a with
  | nil => rfl
  | cons op a ih => cases op <;> simp [drawnGlyphs, ih]

theorem drawnGlyphs_map (f : Char → DrawOp) (g : Char → List Char × RGB × Option RGB)
    (t : List Char)
    (h1 : ∀ c ∈ t, c = '\n' → drawnGlyphs [f c] = [])
    (h2 : ∀ c ∈ t, c ≠ '\n' → drawnGlyphs [f c] = [g c]) :
    drawnGlyphs (t.map f) = (t.filter fun c => c != '\n').map g := by
  induction t with
  | nil => rfl
  | cons c t ih =>
    have ih1 := ih (fun x hx => h1 x (List.mem_cons_of_mem _ hx))
      (fun x hx => h2 x (List.mem_cons_of_mem _ hx))
    have e : drawnGlyphs ((c :: t).map f) = drawnGlyphs [f c] ++ drawnGlyphs (t.map f) := by
      rw [List.map_cons, ← drawnGlyphs_append]
      rfl
    rw [e, ih1]
    by_cases hc : c = '\n'
    · rw [h1 c (List.mem_cons_self _ _) hc]
      simp [List.filter_cons, hc]
    · rw [h2 c (List.mem_cons_self _ _) hc]
      simp [List.filter_cons, hc]

/-- C5 (amended): for every text `t` without the escape character, every
traversal order in every round and every number of rounds of at least
`t.length + 2`, the loop of `SavePNG` started in the state of
`NewImageRenderer` on `ESC[31m ++ t ++ ESC[0m` ends with the text used up, the
foreground (255,255,255), the background unset and the style none; for each
character of `t` in order it has drawn a line feed as a line break and any
other character as the string that `correctString` substitutes for it, in the
regular face, in the colour (222,56,43), with no rectangle and no underline.
So the glyphs drawn are the substitutes of the characters of `t` other than
the line feed, each in (222,56,43) with no background. -/
theorem loop_red_text (orders : Nat → List (String × Re)) (t : List Char) (fuel : Nat)
    (horders : ∀ k, (orders k).Perm ansiSequenceRegexMap)
    (ht : ∀ c ∈ t, c ≠ ESC) (hfuel : t.length + 2 ≤ fuel) :
    SavePNG_loop orders fuel
        (NewImageRenderer (ESC :: '[' :: '3' :: '1' :: 'm' :: (t ++ ESC :: '[' :: '0' :: ['m'])))
        [] =
      .done { NewImageRenderer [] with foregroundColor := some ⟨255, 255, 255⟩ }
        (t.map fun c =>
          if c = '\n' then DrawOp.lineBreak none
          else DrawOp.glyph (correctString [c]) Face.regular ⟨222, 56, 43⟩ none false) ∧
    drawnGlyphs (t.map fun c =>
          if c = '\n' then DrawOp.lineBreak none
          else DrawOp.glyph (correctString [c]) Face.regular ⟨222, 56, 43⟩ none false) =
      (t.filter fun c => c != '\n').map fun c => (correctString [c], ⟨222, 56, 43⟩, none) := by
  constructor
  · obtain ⟨k, rfl⟩ : ∃ k, fuel = (k + 1 + t.length) + 1 := ⟨fuel - (t.length + 2), by omega⟩
    have h1 := shouldPrint_red (orders (k + 1 + t.length)) (NewImageRenderer [])
      (t ++ ESC :: '[' :: '0' :: ['m']) (horders _)
    have e1 := loop_skip orders (k + 1 + t.length)
      (NewImageRenderer (ESC :: '[' :: '3' :: '1' :: 'm' :: (t ++ ESC :: '[' :: '0' :: ['m'])))
      _ [] (by simp [NewImageRenderer]) h1
    have e2 := loop_chars orders horders t ht (k + 1)
      { NewImageRenderer [] with foregroundColor := some ⟨222, 56, 43⟩ }
      (ESC :: '[' :: '0' :: ['m']) []
    have h3 := shouldPrint_reset_aux (orders k)
      { NewImageRenderer [] with foregroundColor := some ⟨222, 56, 43⟩ } [] (horders k)
    have e3 := loop_skip orders k
      { NewImageRenderer [] with foregroundColor := some ⟨222, 56, 43⟩,
                                 ansiString := ESC :: '[' :: '0' :: ['m'] }
      _ (t.map (drawRune { NewImageRenderer [] with foregroundColor := some ⟨222, 56, 43⟩ }))
      (by simp) h3
    rw [e1]
    refine e2.trans ?_
    rw [List.nil_append]
    refine e3.trans ?_
    rw [loop_empty orders k _ _ rfl]
    congr 1
    apply List.map_congr_left
    intro c _
    by_cases hc : c = '\n'
    · subst hc
      decide
    · have hlf : correctString [c] ≠ ['\n'] := fun h => hc ((correctString_lineFeed c).1 h)
      simp [drawRune, hc, hlf, NewImageRenderer, fontFace, bold, italic, underline]
  · apply drawnGlyphs_map
    · intro c _ hc
      simp [hc, drawnGlyphs]
    · intro c _ hc
      simp [hc, drawnGlyphs]

theorem loop_red_text_witness :
    (∀ k : Nat, ((fun _ => ansiSequenceRegexMap) k).Perm ansiSequenceRegexMap) ∧
    (∀ c ∈ "Hello".toList, c ≠ ESC) ∧ "Hello".toList.length + 2 ≤ 7 ∧
    (SavePNG_loop (fun _ => ansiSequenceRegexMap) 7
        (NewImageRenderer
          (ESC :: '[' :: '3' :: '1' :: 'm' :: ("Hello".toList ++ ESC :: '[' :: '0' :: ['m'])))
        [] =
      .done { NewImageRenderer [] with foregroundColor := some ⟨255, 255, 255⟩ }
        [DrawOp.glyph ['H'] Face.regular ⟨222, 56, 43⟩ none false,
         DrawOp.glyph ['e'] Face.regular ⟨222, 56, 43⟩ none false,
         DrawOp.glyph ['l'] Face.regular ⟨222, 56, 43⟩ none false,
         DrawOp.glyph ['l'] Face.regular ⟨222, 56, 43⟩ none false,
         DrawOp.glyph ['o'] Face.regular ⟨222, 56, 43⟩ none false] ∧
    drawnGlyphs
        [DrawOp.glyph ['H'] Face.regular ⟨222, 56, 43⟩ none false,
         DrawOp.glyph ['e'] Face.regular ⟨222, 56, 43⟩ none false,
         DrawOp.glyph ['l'] Face.regular ⟨222, 56, 43⟩ none false,
         DrawOp.glyph ['l'] Face.regular ⟨222, 56, 43⟩ none false,
         DrawOp.glyph ['o'] Face.regular ⟨222, 56, 43⟩ none false] =
      [(['H'], ⟨222, 56, 43⟩, none), (['e'], ⟨222, 56, 43⟩, none), (['l'], ⟨222, 56, 43⟩, none),
       (['l'], ⟨222, 56, 43⟩, none), (['o'], ⟨222, 56, 43⟩, none)]) :=
  ⟨fun _ => List.Perm.refl _, by decide, by decide,
    loop_red_text (fun _ => ansiSequenceRegexMap) "Hello".toList 7
      (fun _ => List.Perm.refl _) (by decide) (by decide)⟩

/-- C5 as stated fails at `t` = U+2717: the loop draws U+00D7 in its place, so
the glyph drawn is not the character of `t`. -/
theorem loop_red_text_counterexample :
    SavePNG_loop (fun _ => ansiSequenceRegexMap) 3
        (NewImageRenderer
          (ESC :: '[' :: '3' :: '1' :: 'm' :: ([Char.ofNat 0x2717] ++ ESC :: '[' :: '0' :: ['m'])))
        [] =
      .done { NewImageRenderer [] with foregroundColor := some ⟨255, 255, 255⟩ }
        [DrawOp.glyph [Char.ofNat 0x00D7] Face.regular ⟨222, 56, 43⟩ none false] ∧
    drawnGlyphs [DrawOp.glyph [Char.ofNat 0x00D7] Face.regular ⟨222, 56, 43⟩ none false] ≠
      ([Char.ofNat 0x2717].filter fun c => c != '\n').map
        fun c => ([c], (⟨222, 56, 43⟩ : RGB), (none : Option RGB)) := by
  decide

/-! ## Dependence on the traversal order -/

/-- C6 (the code at the failing input): on `ESC[22m` in a bold state a
traversal in the order of the map literal resets the style, but the reversed
traversal, which is as possible as any other for a Go map, meets the 16-colour
pattern first: the style stays bold and the foreground becomes the default
foreground colour.  The same happens to `ESC[23m` in an italic state and to
`ESC[24m` in an underline state. -/
theorem shouldPrint_boldReset_shadowed :
    ansiSequenceRegexMap.reverse.Perm ansiSequenceRegexMap ∧
    shouldPrint ansiSequenceRegexMap
        { NewImageRenderer (ESC :: '[' :: '2' :: '2' :: 'm' :: ['x']) with style := bold } =
      some (false, { NewImageRenderer ['x'] with style := "" }) ∧
    shouldPrint ansiSequenceRegexMap.reverse
        { NewImageRenderer (ESC :: '[' :: '2' :: '2' :: 'm' :: ['x']) with style := bold } =
      some (false, { NewImageRenderer ['x'] with
                       style := bold, foregroundColor := some ⟨255, 255, 255⟩ }) ∧
    shouldPrint ansiSequenceRegexMap.reverse
        { NewImageRenderer (ESC :: '[' :: '2' :: '3' :: 'm' :: ['x']) with style := italic } =
      some (false, { NewImageRenderer ['x'] with
                       style := italic, foregroundColor := some ⟨255, 255, 255⟩ }) ∧
    shouldPrint ansiSequenceRegexMap.reverse
        { NewImageRenderer (ESC :: '[' :: '2' :: '4' :: 'm' :: ['x']) with style := underline } =
      some (false, { NewImageRenderer ['x'] with
                       style := underline, foregroundColor := some ⟨255, 255, 255⟩ }) :=
  ⟨List.reverse_perm _, by decide, by decide, by decide, by decide⟩

/-- C7 (the code at the failing input): two traversal orders of the pattern
table give different outcomes of one `shouldPrint` step on the same state, and
different drawings of the same text by the loop of `SavePNG`. -/
theorem shouldPrint_order_dependent :
    ansiSequenceRegexMap.reverse.Perm ansiSequenceRegexMap ∧
    shouldPrint ansiSequenceRegexMap
        { NewImageRenderer (ESC :: '[' :: '2' :: '2' :: 'm' :: ['x']) with style := bold } ≠
      shouldPrint ansiSequenceRegexMap.reverse
        { NewImageRenderer (ESC :: '[' :: '2' :: '2' :: 'm' :: ['x']) with style := bold } ∧
    SavePNG_loop (fun _ => ansiSequenceRegexMap) 3
        (NewImageRenderer (ESC :: '[' :: '1' :: 'm' :: ESC :: '[' :: '2' :: '2' :: 'm' :: ['x']))
        [] =
      .done (NewImageRenderer [])
        [.glyph ['x'] Face.regular ⟨255, 255, 255⟩ none false] ∧
    SavePNG_loop (fun _ => ansiSequenceRegexMap.reverse) 3
        (NewImageRenderer (ESC :: '[' :: '1' :: 'm' :: ESC :: '[' :: '2' :: '2' :: 'm' :: ['x']))
        [] =
      .done { NewImageRenderer [] with style := bold, foregroundColor := some ⟨255, 255, 255⟩ }
        [.glyph ['x'] Face.bold ⟨255, 255, 255⟩ none false] :=
  ⟨List.reverse_perm _, by decide, by decide, by decide⟩

/-! ## The inverted colour with one code -/

theorem single_table2 (a b : Char) (t : List Char) (ha : a.isDigit = true)
    (hb : b.isDigit = true) :
    ∀ e ∈ ansiSequenceRegexMap,
      e = (invertedColorSingle, .group STR (.cat (.lit [ESC, '['])
        (.cat (.group BG (.rep (.cls .digit) 2 1))
          (.cat (.lit ";49m".toList) (.lit (ESC :: "[7m".toList)))))) ∨
      findNamedRegexMatch e.2 (ESC :: '[' :: a :: b :: ';' :: '4' :: t) = none := by
  have b1 : b ≠ 'm' := digit_ne b 'm' hb (by decide)
  have b2 : b ≠ 'D' := digit_ne b 'D' hb (by decide)
  have b3 : b ≠ 'F' := digit_ne b 'F' hb (by decide)
  have b4 : b ≠ 'B' := digit_ne b 'B' hb (by decide)
  have b5 : b ≠ ';' := digit_ne b ';' hb (by decide)
  have a1 : a ≠ ']' := digit_ne a ']' ha (by decide)
  intro e he
  simp only [ansiSequenceRegexMap, List.mem_cons, List.mem_singleton, List.not_mem_nil,
    or_false] at he
  rcases he with h | h | h | h | h | h | h | h | h | h | h | h | h | h | h | h | h | h | h <;>
    subst h <;>
    first
      | exact Or.inl rfl
      | (right
         simp [findNamedRegexMatch, Re.run, HasPrefix, repRun, optRun, Cls.test, ESC, plusRun,
           ha, hb, b1, b2, b3, b4, b5, a1])

theorem single_table3 (a b c : Char) (t : List Char) (ha : a.isDigit = true)
    (hb : b.isDigit = true) (hc : c.isDigit = true) :
    ∀ e ∈ ansiSequenceRegexMap,
      e = (invertedColorSingle, .group STR (.cat (.lit [ESC, '['])
        (.cat (.group BG (.rep (.cls .digit) 2 1))
          (.cat (.lit ";49m".toList) (.lit (ESC :: "[7m".toList)))))) ∨
      findNamedRegexMatch e.2 (ESC :: '[' :: a :: b :: c :: ';' :: '4' :: t) = none := by
  have b1 : b ≠ 'm' := digit_ne b 'm' hb (by decide)
  have b2 : b ≠ 'D' := digit_ne b 'D' hb (by decide)
  have b3 : b ≠ 'F' := digit_ne b 'F' hb (by decide)
  have b4 : b ≠ 'B' := digit_ne b 'B' hb (by decide)
  have b5 : b ≠ ';' := digit_ne b ';' hb (by decide)
  have c1 : c ≠ 'm' := digit_ne c 'm' hc (by decide)
  have c2 : c ≠ 'D' := digit_ne c 'D' hc (by decide)
  have c5 : c ≠ ';' := digit_ne c ';' hc (by decide)
  intro e he
  simp only [ansiSequenceRegexMap, List.mem_cons, List.mem_singleton, List.not_mem_nil,
    or_false] at he
  rcases he with h | h | h | h | h | h | h | h | h | h | h | h | h | h | h | h | h | h | h <;>
    subst h <;>
    first
      | exact Or.inl rfl
      | (right
         simp [findNamedRegexMatch, Re.run, HasPrefix, repRun, optRun, Cls.test, ESC, plusRun,
           ha, hb, hc, b1, b2, b3, b4, b5, c1, c2, c5])

theorem single_find (ds rest : List Char)
    (hds : (∃ a b, ds = [a, b] ∧ a.isDigit = true ∧ b.isDigit = true) ∨
      (∃ a b c, ds = [a, b, c] ∧ a.isDigit = true ∧ b.isDigit = true ∧ c.isDigit = true)) :
    findNamedRegexMatch (.group STR (.cat (.lit [ESC, '['])
        (.cat (.group BG (.rep (.cls .digit) 2 1))
          (.cat (.lit ";49m".toList) (.lit (ESC :: "[7m".toList))))))
      ((ESC :: '[' :: (ds ++ (";49m".toList ++ (ESC :: "[7m".toList)))) ++ rest) =
    some [(STR, ESC :: '[' :: (ds ++ (";49m".toList ++ (ESC :: "[7m".toList)))), (BG, ds)] := by
  have hrep : (Re.rep (.cls .digit) 2 1).first
      (ds ++ (";49m".toList ++ ((ESC :: "[7m".toList) ++ rest)), []) =
      some (";49m".toList ++ ((ESC :: "[7m".toList) ++ rest), []) := by
    rcases hds with ⟨a, b, rfl, ha, hb⟩ | ⟨a, b, c, rfl, ha, hb, hc⟩
    · simp [Re.first, Re.run, repRun, optRun, Cls.test, ha, hb]
    · simp [Re.first, Re.run, repRun, optRun, Cls.test, ha, hb, hc]
  have e1 := first_group BG _ ds _ [] [] hrep
  have e2 := first_cat _ _ _ _ _ e1 (first_cat _ _ _ _ _
    (first_lit ";49m".toList ((ESC :: "[7m".toList) ++ rest) [(BG, ds)])
    (first_lit (ESC :: "[7m".toList) rest [(BG, ds)]))
  have e3 := first_cat _ _ _ _ _ (first_lit [ESC, '[']
    (ds ++ (";49m".toList ++ ((ESC :: "[7m".toList) ++ rest))) []) e2
  have e4 := first_group STR _ (ESC :: '[' :: (ds ++ (";49m".toList ++ (ESC :: "[7m".toList))))
    rest [] _ (by simpa [List.append_assoc] using e3)
  exact congrArg (Option.map fun st => st.2) e4

theorem shouldPrint_invertedSingle_aux (order : List (String × Re)) (s : ImageRenderer)
    (c : Nat) (rest : List Char) (horder : order.Perm ansiSequenceRegexMap)
    (hc1 : 10 ≤ c) (hc2 : c ≤ 999) :
    shouldPrint order { s with ansiString := invertedSingleSequence c ++ rest } =
      some (false, setBase16Color
        { s with ansiString := rest, foregroundColor := some s.defaultBackgroundColor }
        (Sprint ((c : Int) + 10))) := by
  obtain ⟨hds, ha, -⟩ := sprint_code c hc1 hc2
  have hfind := single_find (Sprint (c : Int)) rest hds
  have htab : ∀ e ∈ ansiSequenceRegexMap,
      e = (invertedColorSingle, .group STR (.cat (.lit [ESC, '['])
        (.cat (.group BG (.rep (.cls .digit) 2 1))
          (.cat (.lit ";49m".toList) (.lit (ESC :: "[7m".toList)))))) ∨
      findNamedRegexMatch e.2 (invertedSingleSequence c ++ rest) = none := by
    rcases hds with ⟨a, b, hab, ha, hb⟩ | ⟨a, b, d, hab, ha, hb, hd⟩
    · have := single_table2 a b ('9' :: 'm' :: ESC :: '[' :: '7' :: 'm' :: rest) ha hb
      simpa [invertedSingleSequence, hab] using this
    · have := single_table3 a b d ('9' :: 'm' :: ESC :: '[' :: '7' :: 'm' :: rest) ha hb hd
      simpa [invertedSingleSequence, hab] using this
  have hfind2 : findNamedRegexMatch (.group STR (.cat (.lit [ESC, '['])
        (.cat (.group BG (.rep (.cls .digit) 2 1))
          (.cat (.lit ";49m".toList) (.lit (ESC :: "[7m".toList))))))
      (invertedSingleSequence c ++ rest) =
      some [(STR, invertedSingleSequence c), (BG, Sprint (c : Int))] := hfind
  rw [shouldPrint_perm_unique order _ invertedColorSingle _ horder (by decide)
    (by simp [ansiSequenceRegexMap]) (by rw [hfind2]; simp) htab]
  simp only [shouldPrint, hfind2]
  simp [Captures.get, STR, BG, invertedColor, invertedColorSingle, trimPrefix_append, ha]

/-- C8 (amended): for every state whose default background colour is
(21,21,21), as `NewImageRenderer` sets it, every traversal order, every code
`c` of two or three digits and every following text `rest`, one `shouldPrint`
step on `ESC[c;49m ESC[7m ++ rest` returns false and leaves `rest`.  When
`c + 10` is a background-slot code for `setBase16Color` (30 ≤ c < 80 or
90 ≤ c) the foreground becomes (21,21,21) and the background the table colour
of `c + 10`.  For the other codes (c < 30 or 80 ≤ c < 90) the foreground
becomes the table colour of `c + 10` and the background is unchanged. -/
theorem shouldPrint_invertedSingle (order : List (String × Re)) (s : ImageRenderer)
    (c : Nat) (rest : List Char) (horder : order.Perm ansiSequenceRegexMap)
    (hc1 : 10 ≤ c) (hc2 : c ≤ 999) (hdef : s.defaultBackgroundColor = ⟨21, 21, 21⟩) :
    shouldPrint order { s with ansiString := invertedSingleSequence c ++ rest } =
      some (false,
        if (30 ≤ c ∧ c < 80) ∨ 90 ≤ c then
          { s with
            ansiString := rest,
            foregroundColor := some ⟨21, 21, 21⟩,
            backgroundColor := some (base16Color s.defaultForegroundColor ((c : Int) + 10)) }
        else
          { s with
            ansiString := rest,
            foregroundColor := some (base16Color s.defaultForegroundColor ((c : Int) + 10)) }) := by
  obtain ⟨-, -, hb⟩ := sprint_code c hc1 hc2
  rw [shouldPrint_invertedSingle_aux order s c rest horder hc1 hc2,
    setBase16Color_of_atoi _ _ _ hb]
  by_cases h : (30 ≤ c ∧ c < 80) ∨ 90 ≤ c
  · rw [if_pos h, if_neg (by omega)]
    simp [hdef]
  · rw [if_neg h, if_pos (by omega)]

theorem shouldPrint_invertedSingle_witness :
    ansiSequenceRegexMap.Perm ansiSequenceRegexMap ∧ 10 ≤ 31 ∧ 31 ≤ 999 ∧
    (NewImageRenderer []).defaultBackgroundColor = ⟨21, 21, 21⟩ ∧
    shouldPrint ansiSequenceRegexMap
        { NewImageRenderer [] with ansiString := invertedSingleSequence 31 ++ ['x'] } =
      some (false, { NewImageRenderer [] with
          ansiString := ['x'],
          foregroundColor := some ⟨21, 21, 21⟩,
          backgroundColor := some ⟨222, 56, 43⟩ }) :=
  ⟨List.Perm.refl _, by decide, by decide, rfl,
    shouldPrint_invertedSingle ansiSequenceRegexMap (NewImageRenderer []) 31 ['x']
      (List.Perm.refl _) (by decide) (by decide) rfl⟩

/-- C8 as stated fails at the code 20: the step on `ESC[20;49m ESC[7m` stores
the table colour of 30, (1,1,1), in the foreground and leaves the background
unset, so the foreground is not (21,21,21) and the background is not the table
colour of 30. -/
theorem shouldPrint_invertedSingle_counterexample :
    shouldPrint ansiSequenceRegexMap
        (NewImageRenderer (invertedSingleSequence 20 ++ ['x'])) =
      some (false, { NewImageRenderer ['x'] with foregroundColor := some ⟨1, 1, 1⟩ }) ∧
    (some ⟨1, 1, 1⟩ : Option RGB) ≠ some ⟨21, 21, 21⟩ ∧
    (NewImageRenderer ['x']).backgroundColor ≠
      some (base16Color (NewImageRenderer ['x']).defaultForegroundColor (20 + 10)) := by
  decide

/-! ## The file hyperlink -/

theorem plusRun_flatMap_head {β : Type} (p : Char → Bool) (ds t : List Char)
    (f : List Char → List β) (y : β) (hne : ds ≠ []) (hds : ∀ d ∈ ds, p d = true)
    (hf : (f t).head? = some y) (hrest : (plusRun p t).flatMap f = []) :
    ((plusRun p (ds ++ t)).flatMap f).head? = some y := by
  induction ds with
  | nil => exact absurd rfl hne
  | cons d ds ih =>
    have hd : p d = true := hds d (List.mem_cons_self _ _)
    have e1 : plusRun p (d :: ds ++ t) = plusRun p (ds ++ t) ++ [ds ++ t] := by
      simp [plusRun, hd]
    rw [e1, List.flatMap_append, List.head?_append]
    cases ds with
    | nil =>
      simp only [List.nil_append] at *
      rw [hrest]
      simp [hf]
    | cons e es =>
      rw [ih (by simp) (fun x hx => hds x (List.mem_cons_of_mem _ hx))]
      rfl

theorem containsInLine_hasPrefix (pat x : List Char) (h : containsInLine pat x = false) :
    HasPrefix x pat = false := by
  cases x with
  | nil => simpa [containsInLine] using h
  | cons c cs =>
    simp only [containsInLine, Bool.or_eq_false_iff] at h
    exact h.1

theorem containsInLine_tail (pat : List Char) (c : Char) (cs : List Char) (hc : c ≠ '\n')
    (h : containsInLine pat (c :: cs) = false) : containsInLine pat cs = false := by
  simp only [containsInLine, Bool.or_eq_false_iff, Bool.and_eq_false_imp] at h
  exact h.2 (by simpa using hc)

theorem noEnd_flatMap {β : Type} (g : List Char → List β)
    (hg : ∀ u, containsInLine linkEnd u = false → g u = []) :
    ∀ x, containsInLine linkEnd x = false → (plusRun Cls.dot.test x).flatMap g = [] := by
  intro x
  induction x with
  | nil => intro _; rfl
  | cons c cs ih =>
    intro h
    by_cases hc : c = '\n'
    · subst hc
      simp [plusRun, Cls.test]
    · have h1 := containsInLine_tail linkEnd c cs hc h
      have e1 : plusRun Cls.dot.test (c :: cs) = plusRun Cls.dot.test cs ++ [cs] := by
        simp [plusRun, Cls.test, hc]
      rw [e1, List.flatMap_append, ih h1]
      simp [hg cs h1]


/-- The link text and the terminator: `(?P<URL>.+)` followed by the literal
that ends the wrapper. -/
theorem linkText_run (x : List Char) (c : Captures) :
    (Re.cat (.group URL (.plus .dot)) (.lit linkEnd)).run (x, c) =
      (plusRun Cls.dot.test x).flatMap fun u =>
        (Re.lit linkEnd).run (u, (URL, x.take (x.length - u.length)) :: c) := by
  simp [Re.run, List.flatMap_map, List.map_map, Function.comp_def]

theorem linkText_fail (x : List Char) (c : Captures)
    (h : containsInLine linkEnd x = false) :
    (Re.cat (.group URL (.plus .dot)) (.lit linkEnd)).run (x, c) = [] := by
  rw [linkText_run]
  refine noEnd_flatMap _ ?_ x h
  intro u hu
  simp [Re.run, containsInLine_hasPrefix linkEnd u hu]

theorem containsInLine_linkEnd_tail (rest : List Char)
    (h : containsInLine linkEnd rest = false) :
    containsInLine linkEnd (']' :: '8' :: ';' :: ';' :: ESC :: '\\' :: rest) = false := by
  simp only [linkEnd, ESC] at h ⊢
  simp [containsInLine, HasPrefix, h]

theorem linkText_first (t rest : List Char) (c : Captures) (ht : t ≠ [])
    (ht1 : ∀ d ∈ t, d ≠ '\n') (hrest : containsInLine linkEnd rest = false) :
    (Re.cat (.group URL (.plus .dot)) (.lit linkEnd)).first (t ++ (linkEnd ++ rest), c) =
      some (rest, (URL, t) :: c) := by
  rw [Re.first, linkText_run]
  refine plusRun_flatMap_head _ t (linkEnd ++ rest) _ _ ht
    (fun d hd => by simpa [Cls.test] using ht1 d hd) ?_ ?_
  · simp [Re.run, hasPrefix_append]
  · have h1 := containsInLine_linkEnd_tail rest hrest
    have e1 : plusRun Cls.dot.test (linkEnd ++ rest) =
        plusRun Cls.dot.test (']' :: '8' :: ';' :: ';' :: ESC :: '\\' :: rest) ++
          [']' :: '8' :: ';' :: ';' :: ESC :: '\\' :: rest] := by
      simp [linkEnd, plusRun, Cls.test, ESC]
    rw [e1, List.flatMap_append]
    rw [noEnd_flatMap _ (fun u hu => by
      simp [Re.run, containsInLine_hasPrefix linkEnd u hu]) _ h1]
    simp [Re.run, containsInLine_hasPrefix linkEnd _ h1]

theorem linkTail_fail (u : List Char) (c : Captures)
    (h : containsInLine linkEnd u = false) : linkTail.run (u, c) = [] := by
  match u, h with
  | [], _ => simp [linkTail, Re.run, HasPrefix]
  | [a], _ => simp [linkTail, Re.run, HasPrefix]
  | a :: b :: y, h =>
    by_cases hp : HasPrefix (a :: b :: y) [ESC, '\\'] = true
    · have hab : a = ESC ∧ b = '\\' := by simpa [HasPrefix] using hp
      obtain ⟨rfl, rfl⟩ := hab
      have h1 := containsInLine_tail linkEnd ESC _ (by decide) h
      have h2 := containsInLine_tail linkEnd '\\' _ (by decide) h1
      have h3 := linkText_fail y c h2
      simp only [linkTail, Re.run, hp, if_true, List.flatMap_cons, List.flatMap_nil,
        List.append_nil, List.length_cons, List.length_nil, List.drop_succ_cons, List.drop_zero]
      simpa [Re.run] using h3
    · simp [linkTail, Re.run, hp]

theorem linkTail_fail_char (a : Char) (y : List Char) (c : Captures) (ha : a ≠ ESC) :
    linkTail.run (a :: y, c) = [] := by
  simp [linkTail, Re.run, HasPrefix, ha]


theorem linkTail_first (t rest : List Char) (c : Captures) (ht : t ≠ [])
    (ht1 : ∀ d ∈ t, d ≠ '\n') (hrest : containsInLine linkEnd rest = false) :
    linkTail.first ([ESC, '\\'] ++ (t ++ (linkEnd ++ rest)), c) = some (rest, (URL, t) :: c) :=
  first_cat _ _ _ _ _ (first_lit [ESC, '\\'] _ c) (linkText_first t rest c ht ht1 hrest)

theorem linkTail_text_fail (t z : List Char) (c : Captures) (ht : ∀ d ∈ t, d ≠ ESC)
    (hz : linkTail.run (z, c) = [])
    (hzs : (plusRun Cls.dot.test z).flatMap (fun u => linkTail.run (u, c)) = []) :
    (plusRun Cls.dot.test (t ++ z)).flatMap (fun u => linkTail.run (u, c)) = [] ∧
      linkTail.run (t ++ z, c) = [] := by
  induction t with
  | nil => exact ⟨hzs, hz⟩
  | cons a t ih =>
    have ha : a ≠ ESC := ht a (List.mem_cons_self _ _)
    obtain ⟨i1, i2⟩ := ih (fun d hd => ht d (List.mem_cons_of_mem _ hd))
    refine ⟨?_, linkTail_fail_char a _ c ha⟩
    by_cases hn : a = '\n'
    · subst hn
      simp [plusRun, Cls.test]
    · have e1 : plusRun Cls.dot.test (a :: t ++ z) =
          plusRun Cls.dot.test (t ++ z) ++ [t ++ z] := by
        simp [plusRun, Cls.test, hn]
      rw [e1, List.flatMap_append, i1]
      simp [i2]

/-- The link pattern of the table. -/
theorem link_first (p t rest : List Char) (hp : p ≠ []) (ht : t ≠ [])
    (hp1 : ∀ d ∈ p, d ≠ '\n') (ht1 : ∀ d ∈ t, d ≠ ESC ∧ d ≠ '\n')
    (hrest : containsInLine linkEnd rest = false) :
    findNamedRegexMatch
      (.group STR (.cat (.lit (ESC :: "]8;;file://".toList))
        (.cat (.plus .dot) (.cat (.lit [ESC, '\\'])
          (.cat (.group URL (.plus .dot))
            (.lit (ESC :: (']' :: '8' :: ';' :: ';' :: ESC :: ['\\']))))))))
      (linkWrapper p t ++ rest) =
    some [(STR, linkWrapper p t), (URL, t)] := by
  have h1 := containsInLine_linkEnd_tail rest hrest
  -- the tail of the pattern fails everywhere after the first `ESC \`
  have hz : linkTail.run (linkEnd ++ rest, []) = [] := by
    simp [linkTail, linkEnd, Re.run, HasPrefix, ESC]
  have hzs : (plusRun Cls.dot.test (linkEnd ++ rest)).flatMap
      (fun u => linkTail.run (u, [])) = [] := by
    have e1 : plusRun Cls.dot.test (linkEnd ++ rest) =
        plusRun Cls.dot.test (']' :: '8' :: ';' :: ';' :: ESC :: '\\' :: rest) ++
          [']' :: '8' :: ';' :: ';' :: ESC :: '\\' :: rest] := by
      simp [linkEnd, plusRun, Cls.test, ESC]
    rw [e1, List.flatMap_append,
      noEnd_flatMap _ (fun u hu => linkTail_fail u [] hu) _ h1]
    simp [linkTail_fail _ [] h1]
  obtain ⟨k1, k2⟩ := linkTail_text_fail t (linkEnd ++ rest) [] (fun d hd => (ht1 d hd).1) hz hzs
  have hX : (plusRun Cls.dot.test ([ESC, '\\'] ++ (t ++ (linkEnd ++ rest)))).flatMap
      (fun u => linkTail.run (u, [])) = [] := by
    have e1 : plusRun Cls.dot.test ([ESC, '\\'] ++ (t ++ (linkEnd ++ rest))) =
        (plusRun Cls.dot.test (t ++ (linkEnd ++ rest)) ++ [t ++ (linkEnd ++ rest)]) ++
          ['\\' :: (t ++ (linkEnd ++ rest))] := by
      simp [plusRun, Cls.test, ESC]
    rw [e1, List.flatMap_append, List.flatMap_append, k1]
    simp [k2, linkTail_fail_char '\\' _ [] (by decide)]
  -- the path takes `p`
  have hP : (Re.cat (.plus .dot) linkTail).first
      (p ++ ([ESC, '\\'] ++ (t ++ (linkEnd ++ rest))), []) = some (rest, [(URL, t)]) := by
    have e : (Re.cat (.plus .dot) linkTail).run
        (p ++ ([ESC, '\\'] ++ (t ++ (linkEnd ++ rest))), []) =
        (plusRun Cls.dot.test (p ++ ([ESC, '\\'] ++ (t ++ (linkEnd ++ rest))))).flatMap
          (fun u => linkTail.run (u, [])) := by
      simp [Re.run, List.flatMap_map]
    rw [Re.first, e]
    exact plusRun_flatMap_head _ p _ _ _ hp (fun d hd => by simpa [Cls.test] using hp1 d hd)
      (linkTail_first t rest [] ht (fun d hd => (ht1 d hd).2) hrest) hX
  have e3 := first_cat _ _ _ _ _ (first_lit (ESC :: "]8;;file://".toList)
    (p ++ ([ESC, '\\'] ++ (t ++ (linkEnd ++ rest)))) []) hP
  have e4 := first_group STR _ (linkWrapper p t) rest [] _
    (by simpa [linkWrapper, List.append_assoc] using e3)
  exact congrArg (Option.map fun st => st.2) e4

theorem link_table (t : List Char) :
    ∀ e ∈ ansiSequenceRegexMap,
      e = (link, .group STR (.cat (.lit (ESC :: "]8;;file://".toList))
        (.cat (.plus .dot) (.cat (.lit [ESC, '\\'])
          (.cat (.group URL (.plus .dot))
            (.lit (ESC :: (']' :: '8' :: ';' :: ';' :: ESC :: ['\\'])))))))) ∨
      findNamedRegexMatch e.2 (ESC :: ']' :: '8' :: t) = none := by
  intro e he
  simp only [ansiSequenceRegexMap, List.mem_cons, List.mem_singleton, List.not_mem_nil,
    or_false] at he
  rcases he with h | h | h | h | h | h | h | h | h | h | h | h | h | h | h | h | h | h | h <;>
    subst h <;>
    first
      | exact Or.inl rfl
      | (right
         simp [findNamedRegexMatch, Re.run, HasPrefix, repRun, optRun, Cls.test, ESC, plusRun])

theorem shouldPrint_link_step (r : Re) (more : List (String × Re)) (s : ImageRenderer)
    (m : Captures) (hm : findNamedRegexMatch r s.ansiString = some m) :
    shouldPrint ((link, r) :: more) s =
      shouldPrint more
        { s with ansiString := m.get URL ++ TrimPrefix s.ansiString (m.get STR) } := by
  simp [shouldPrint, hm, link, invertedColor, invertedColorSingle, fullColor, foreground, reset,
    bold, italic, underline, boldReset, italicReset, underlineReset, strikethrough,
    strikethroughReset, left, osc99, lineChange, title, color16]

theorem shouldPrint_link_unique (order : List (String × Re)) (s : ImageRenderer) (r : Re)
    (m : Captures) (hmem : (link, r) ∈ order)
    (hm : findNamedRegexMatch r s.ansiString = some m)
    (hothers : ∀ e ∈ order, e = (link, r) ∨ findNamedRegexMatch e.2 s.ansiString = none)
    (hafter : ∀ e ∈ order, findNamedRegexMatch e.2
      (m.get URL ++ TrimPrefix s.ansiString (m.get STR)) = none) :
    shouldPrint order s =
      some (true, { s with ansiString := m.get URL ++ TrimPrefix s.ansiString (m.get STR) }) := by
  induction order with
  | nil => simp at hmem
  | cons e more ih =>
    rcases hothers e (List.mem_cons_self _ _) with he | he
    · subst he
      rw [shouldPrint_link_step r more s m hm]
      have h := shouldPrint_skip more []
        { s with ansiString := m.get URL ++ TrimPrefix s.ansiString (m.get STR) }
        (fun e he => hafter e (List.mem_cons_of_mem _ he))
      rw [List.append_nil] at h
      rw [h, shouldPrint]
    · have hne : e ≠ (link, r) := by
        intro h
        subst h
        rw [hm] at he
        exact absurd he (by simp)
      have hmem1 : (link, r) ∈ more := by
        rcases List.mem_cons.1 hmem with h | h
        · exact absurd h.symm hne
        · exact h
      obtain ⟨k1, r1⟩ := e
      simp only [shouldPrint, he]
      exact ih hmem1 (fun e he => hothers e (List.mem_cons_of_mem _ he))
        (fun e he => hafter e (List.mem_cons_of_mem _ he))

/-- The link step on a wrapper that is the last one of its line: for every
state, every traversal order, every non-empty path `p` and non-empty link text
`t`, neither containing the escape character or a line feed, and every
following text `rest` in which no hyperlink terminator occurs before the first
line feed, one `shouldPrint` step on the wrapper followed by `rest` leaves
`t ++ rest` as the text and changes no colour and no style.  The step returns
true. -/
theorem shouldPrint_link_alone (order : List (String × Re)) (s : ImageRenderer)
    (p t rest : List Char) (horder : order.Perm ansiSequenceRegexMap)
    (hp : p ≠ []) (ht : t ≠ [])
    (hp1 : ∀ d ∈ p, d ≠ ESC ∧ d ≠ '\n') (ht1 : ∀ d ∈ t, d ≠ ESC ∧ d ≠ '\n')
    (hrest : containsInLine linkEnd rest = false) :
    shouldPrint order { s with ansiString := linkWrapper p t ++ rest } =
      some (true, { s with ansiString := t ++ rest }) := by
  have hfind := link_first p t rest hp ht (fun d hd => (hp1 d hd).2) ht1 hrest
  have h := shouldPrint_link_unique order { s with ansiString := linkWrapper p t ++ rest } _ _
    (horder.mem_iff.2 (by simp [ansiSequenceRegexMap])) hfind
    (fun e he => link_table _ e (horder.mem_iff.1 he))
    (fun e he => by
      obtain ⟨a, y, rfl⟩ := List.exists_cons_of_ne_nil ht
      have ha : a ≠ ESC := (ht1 a (List.mem_cons_self _ _)).1
      simpa [Captures.get, STR, URL, trimPrefix_append] using
        noEsc_table a (y ++ rest) ha e (horder.mem_iff.1 he))
  rw [h]
  simp [Captures.get, STR, URL, trimPrefix_append]

theorem shouldPrint_link_alone_witness :
    ansiSequenceRegexMap.Perm ansiSequenceRegexMap ∧
    "/tmp/a".toList ≠ [] ∧ "click".toList ≠ [] ∧
    (∀ d ∈ "/tmp/a".toList, d ≠ ESC ∧ d ≠ '\n') ∧
    (∀ d ∈ "click".toList, d ≠ ESC ∧ d ≠ '\n') ∧
    containsInLine linkEnd (ESC :: "[0m more".toList) = false ∧
    shouldPrint ansiSequenceRegexMap
        { NewImageRenderer [] with
          ansiString := linkWrapper "/tmp/a".toList "click".toList ++ (ESC :: "[0m more".toList) } =
      some (true, { NewImageRenderer [] with
          ansiString := "click".toList ++ (ESC :: "[0m more".toList) }) :=
  ⟨List.Perm.refl _, by decide, by decide, by decide, by decide, by decide,
    shouldPrint_link_alone ansiSequenceRegexMap (NewImageRenderer []) "/tmp/a".toList "click".toList
      (ESC :: "[0m more".toList) (List.Perm.refl _) (by decide) (by decide) (by decide)
      (by decide) (by decide)⟩

/-- C10 (the code at the failing input): when a second wrapper follows on the
same line, the greedy path group of the link pattern runs on to the last
`ESC`-backslash before the last link text, so the step leaves the text of the
second link and drops the first link text and everything between the two
wrappers. -/
theorem shouldPrint_link_two_wrappers :
    shouldPrint ansiSequenceRegexMap
        (NewImageRenderer (linkWrapper "/a".toList "click".toList ++
          (' ' :: (linkWrapper "/b".toList "two".toList ++ " end".toList)))) =
      some (true, NewImageRenderer "two end".toList) ∧
    "two end".toList ≠
      "click".toList ++ (' ' :: (linkWrapper "/b".toList "two".toList ++ " end".toList)) := by
  decide


/-! ## Colour captures with fewer than three fields -/

/-- C9 (the code at the failing input): the foreground pattern matches
`ESC[38;2;123m`, each round of `(\d+;?){3}` taking one digit, and captures
`123`; the capture splits on `;` into one field, `NewRGBColor` panics on
`colors[1]`, and so do `shouldPrint` in every traversal order tried and the
loop of `SavePNG`.  The inverted-colour and the full-colour patterns abort in
the same way on `ESC[38;2;123;49m ESC[7m` and on `ESC[48;2;123m ESC[38;2;1;2;3m`. -/
theorem shouldPrint_rgb_panic :
    findNamedRegexMatch
        (.group STR (.cat (.lit (ESC :: "[38;2;".toList))
          (.cat (.group FG rgbFields) (.lit ['m']))))
        (ESC :: "[38;2;123mX".toList) =
      some [(STR, ESC :: "[38;2;123m".toList), (FG, "123".toList)] ∧
    Split ';' "123".toList = ["123".toList] ∧
    NewRGBColor "123".toList = none ∧
    shouldPrint ansiSequenceRegexMap (NewImageRenderer (ESC :: "[38;2;123mX".toList)) = none ∧
    shouldPrint ansiSequenceRegexMap.reverse
        (NewImageRenderer (ESC :: "[38;2;123mX".toList)) = none ∧
    SavePNG_loop (fun _ => ansiSequenceRegexMap) 12
        (NewImageRenderer (ESC :: "[38;2;123mX".toList)) [] = .panic ∧
    shouldPrint ansiSequenceRegexMap
        (NewImageRenderer (ESC :: ("[38;2;123;49m".toList ++ (ESC :: "[7mX".toList)))) = none ∧
    shouldPrint ansiSequenceRegexMap
        (NewImageRenderer (ESC :: ("[48;2;123m".toList ++ (ESC :: "[38;2;1;2;3mX".toList)))) =
      none := by
  decide

/-! ## The return value of the hyperlink case -/

/-- C11 (the code at the failing input): the `link` case of `shouldPrint` has
no `return false`.  On a wrapper around `click` the call reinjects the link
text and returns true, so the loop of `SavePNG` draws the first character of
the link text in that very round: a wrapper around `hi` is drawn in two
rounds, not three.
On a wrapper whose link text starts with the bold sequence the call, made in
the order of the map literal where `link` is visited last, returns true as
well, and the loop draws the escape character of that sequence as a glyph
instead of matching it in the next round. -/
theorem shouldPrint_link_returns_true :
    shouldPrint ansiSequenceRegexMap
        (NewImageRenderer (linkWrapper "/a".toList "click".toList ++ " end".toList)) =
      some (true, NewImageRenderer "click end".toList) ∧
    SavePNG_loop (fun _ => ansiSequenceRegexMap) 2
        (NewImageRenderer (linkWrapper "/a".toList "hi".toList)) [] =
      .done (NewImageRenderer [])
        [.glyph ['h'] Face.regular ⟨255, 255, 255⟩ none false,
         .glyph ['i'] Face.regular ⟨255, 255, 255⟩ none false] ∧
    shouldPrint ansiSequenceRegexMap
        (NewImageRenderer (linkWrapper "/a".toList (ESC :: "[1mX".toList))) =
      some (true, NewImageRenderer (ESC :: "[1mX".toList)) ∧
    SavePNG_loop (fun _ => ansiSequenceRegexMap) 5
        (NewImageRenderer (linkWrapper "/a".toList (ESC :: "[1mX".toList))) [] =
      .done (NewImageRenderer [])
        [.glyph [ESC] Face.regular ⟨255, 255, 255⟩ none false,
         .glyph ['['] Face.regular ⟨255, 255, 255⟩ none false,
         .glyph ['1'] Face.regular ⟨255, 255, 255⟩ none false,
         .glyph ['m'] Face.regular ⟨255, 255, 255⟩ none false,
         .glyph ['X'] Face.regular ⟨255, 255, 255⟩ none false] := by
  decide

/-! ## What a match consumes -/

theorem hasPrefix_split (l : List Char) : ∀ t : List Char, HasPrefix t l = true →
    t = l ++ t.drop l.length := by
  induction l with
  | nil => intro t _; rfl
  | cons c l ih =>
    intro t h
    cases t with
    | nil => simp [HasPrefix] at h
    | cons d t =>
      simp only [HasPrefix, Bool.and_eq_true, beq_iff_eq] at h
      obtain ⟨rfl, h2⟩ := h
      simp only [List.length_cons, List.drop_succ_cons, List.cons_append]
      rw [← ih t h2]

theorem mem_plusRun (p : Char → Bool) : ∀ (t u : List Char), u ∈ plusRun p t →
    ∃ pre, pre ≠ [] ∧ t = pre ++ u := by
  intro t
  induction t with
  | nil => intro u h; simp [plusRun] at h
  | cons c cs ih =>
    intro u h
    simp only [plusRun] at h
    split at h
    · rcases List.mem_append.1 h with h1 | h1
      · obtain ⟨pre, _, hpre⟩ := ih u h1
        exact ⟨c :: pre, by simp, by rw [hpre]; rfl⟩
      · simp only [List.mem_singleton] at h1
        subst h1
        exact ⟨[c], by simp, rfl⟩
    · simp at h

theorem mem_optRun (f : MState → List MState)
    (hf : ∀ st st1, st1 ∈ f st → ∃ pre, st.1 = pre ++ st1.1) :
    ∀ (k : Nat) (st st1 : MState), st1 ∈ optRun f k st → ∃ pre, st.1 = pre ++ st1.1 := by
  intro k
  induction k with
  | zero =>
    intro st st1 h
    simp only [optRun, List.mem_singleton] at h
    subst h
    exact ⟨[], rfl⟩
  | succ k ih =>
    intro st st1 h
    simp only [optRun, List.mem_append, List.mem_flatMap, List.mem_singleton] at h
    rcases h with ⟨x, hx, h1⟩ | h
    · obtain ⟨p1, e1⟩ := hf st x hx
      obtain ⟨p2, e2⟩ := ih x st1 h1
      exact ⟨p1 ++ p2, by rw [e1, e2, List.append_assoc]⟩
    · subst h
      exact ⟨[], rfl⟩

theorem mem_repRun (f : MState → List MState)
    (hf : ∀ st st1, st1 ∈ f st → ∃ pre, st.1 = pre ++ st1.1) (k : Nat) :
    ∀ (n : Nat) (st st1 : MState), st1 ∈ repRun f n k st → ∃ pre, st.1 = pre ++ st1.1 := by
  intro n
  induction n with
  | zero =>
    intro st st1 h
    exact mem_optRun f hf k st st1 (by simpa [repRun] using h)
  | succ n ih =>
    intro st st1 h
    simp only [repRun, List.mem_flatMap] at h
    obtain ⟨x, hx, h1⟩ := h
    obtain ⟨p1, e1⟩ := hf st x hx
    obtain ⟨p2, e2⟩ := ih x st1 h1
    exact ⟨p1 ++ p2, by rw [e1, e2, List.append_assoc]⟩

/-- A match only consumes a prefix: what remains is a suffix of the text. -/
theorem run_suffix (r : Re) : ∀ (st st1 : MState), st1 ∈ r.run st →
    ∃ pre, st.1 = pre ++ st1.1 := by
  induction r with
  | lit l =>
    intro st st1 h
    simp only [Re.run] at h
    split at h
    · rename_i hp
      simp only [List.mem_singleton] at h
      subst h
      exact ⟨l, hasPrefix_split l st.1 hp⟩
    · simp at h
  | cls p =>
    intro st st1 h
    simp only [Re.run] at h
    split at h
    · simp at h
    · rename_i c cs hst
      split at h
      · simp only [List.mem_singleton] at h
        subst h
        exact ⟨[c], by simp [hst]⟩
      · simp at h
  | plus p =>
    intro st st1 h
    simp only [Re.run, List.mem_map] at h
    obtain ⟨u, hu, rfl⟩ := h
    obtain ⟨pre, _, e⟩ := mem_plusRun _ _ _ hu
    exact ⟨pre, e⟩
  | opt a ih =>
    intro st st1 h
    simp only [Re.run, List.mem_append, List.mem_singleton] at h
    rcases h with h | h
    · exact ih st st1 h
    · subst h
      exact ⟨[], rfl⟩
  | rep a n k ih =>
    intro st st1 h
    exact mem_repRun a.run ih k n st st1 (by simpa [Re.run] using h)
  | cat a b iha ihb =>
    intro st st1 h
    simp only [Re.run, List.mem_flatMap] at h
    obtain ⟨x, hx, h1⟩ := h
    obtain ⟨p1, e1⟩ := iha st x hx
    obtain ⟨p2, e2⟩ := ihb x st1 h1
    exact ⟨p1 ++ p2, by rw [e1, e2, List.append_assoc]⟩
  | group name a ih =>
    intro st st1 h
    simp only [Re.run, List.mem_map] at h
    obtain ⟨x, hx, rfl⟩ := h
    exact ih st x hx

theorem run_leads (c : Char) (r : Re) : ∀ (st st1 : MState), r.leads c = true →
    st1 ∈ r.run st → ∃ pre, st.1 = c :: (pre ++ st1.1) := by
  induction r with
  | lit l =>
    intro st st1 hl h
    simp only [Re.run] at h
    split at h
    · rename_i hp
      simp only [List.mem_singleton] at h
      subst h
      cases l with
      | nil => simp [Re.leads] at hl
      | cons d l =>
        simp only [Re.leads, List.head?_cons, beq_iff_eq, Option.some.injEq] at hl
        subst hl
        exact ⟨l, by simpa using hasPrefix_split (d :: l) st.1 hp⟩
    · simp at h
  | cls p => intro st st1 hl; simp [Re.leads] at hl
  | plus p => intro st st1 hl; simp [Re.leads] at hl
  | opt a _ => intro st st1 hl; simp [Re.leads] at hl
  | rep a n k ih =>
    intro st st1 hl h
    cases n with
    | zero => simp [Re.leads] at hl
    | succ n =>
      simp only [Re.leads, Bool.and_eq_true] at hl
      simp only [Re.run, repRun, List.mem_flatMap] at h
      obtain ⟨x, hx, h1⟩ := h
      obtain ⟨p1, e1⟩ := ih st x hl.2 hx
      obtain ⟨p2, e2⟩ := mem_repRun a.run (run_suffix a) k n x st1 h1
      exact ⟨p1 ++ p2, by rw [e1, e2, List.append_assoc]⟩
  | cat a b iha _ =>
    intro st st1 hl h
    simp only [Re.leads] at hl
    simp only [Re.run, List.mem_flatMap] at h
    obtain ⟨x, hx, h1⟩ := h
    obtain ⟨p1, e1⟩ := iha st x hl hx
    obtain ⟨p2, e2⟩ := run_suffix b x st1 h1
    exact ⟨p1 ++ p2, by rw [e1, e2, List.append_assoc]⟩
  | group name a ih =>
    intro st st1 hl h
    simp only [Re.leads] at hl
    simp only [Re.run, List.mem_map] at h
    obtain ⟨x, hx, rfl⟩ := h
    exact ih st x hl hx

theorem take_consumed (pre rest : List Char) :
    (pre ++ rest).take ((pre ++ rest).length - rest.length) = pre := by
  simp

/-- A pattern that is one group `STR` around an expression beginning with the
character `c`: a match splits the text into the captured literal, which begins
with `c`, and the text that `TrimPrefix` leaves. -/
theorem find_wholeGroup (c : Char) (r : Re) (text : List Char) (m : Captures)
    (hr : r.wholeGroup STR c = true) (hm : findNamedRegexMatch r text = some m) :
    ∃ pre, m.get STR = c :: pre ∧ text = (c :: pre) ++ TrimPrefix text (m.get STR) := by
  cases r with
  | group n a =>
    simp only [Re.wholeGroup, Bool.and_eq_true, beq_iff_eq] at hr
    obtain ⟨rfl, ha⟩ := hr
    simp only [findNamedRegexMatch, Option.map_eq_some'] at hm
    obtain ⟨st1, h1, rfl⟩ := hm
    have hmem := List.mem_of_mem_head? h1
    simp only [Re.run, List.mem_map] at hmem
    obtain ⟨x, hx, rfl⟩ := hmem
    obtain ⟨pre, e⟩ := run_leads c a (text, []) x ha hx
    simp only at e
    refine ⟨pre, ?_, ?_⟩
    · have : (c :: pre ++ x.1).take ((c :: pre ++ x.1).length - x.1.length) = c :: pre :=
        take_consumed (c :: pre) x.1
      simpa [Captures.get, e] using this
    · have h2 : Captures.get ((STR, List.take (text.length - x.1.length) text) :: x.2) STR =
          c :: pre := by
        have : (c :: pre ++ x.1).take ((c :: pre ++ x.1).length - x.1.length) = c :: pre :=
          take_consumed (c :: pre) x.1
        simpa [Captures.get, e] using this
      rw [h2]
      have h3 : text = (c :: pre) ++ x.1 := by simpa using e
      rw [h3, trimPrefix_append]
  | lit l => simp [Re.wholeGroup] at hr
  | cls p => simp [Re.wholeGroup] at hr
  | plus p => simp [Re.wholeGroup] at hr
  | opt a => simp [Re.wholeGroup] at hr
  | rep a n k => simp [Re.wholeGroup] at hr
  | cat a b => simp [Re.wholeGroup] at hr

theorem table_wholeGroup : ∀ e ∈ ansiSequenceRegexMap, e.2.wholeGroup STR ESC = true := by
  decide

theorem setBase16Color_ansiString (s : ImageRenderer) (str : List Char) :
    (setBase16Color s str).ansiString = s.ansiString := by
  simp only [setBase16Color]
  split_ifs <;> rfl

theorem table_names : ∀ e ∈ ansiSequenceRegexMap, e.1 = link ∨ e.1 ∈ returning := by
  decide

/-- A step whose first pattern matches and is not the hyperlink pattern ends
there: it reports false and the text is the old one without the captured
literal. -/
theorem shouldPrint_head_returning (k : String) (r : Re) (more : List (String × Re))
    (s s1 : ImageRenderer) (m : Captures) (b : Bool) (hk : k ∈ returning)
    (hm : findNamedRegexMatch r s.ansiString = some m)
    (h : shouldPrint ((k, r) :: more) s = some (b, s1)) :
    b = false ∧ s1.ansiString = TrimPrefix s.ansiString (m.get STR) := by
  simp only [returning, List.mem_cons, List.mem_singleton, List.not_mem_nil, or_false] at hk
  rcases hk with h1 | h1 | h1 | h1 | h1 | h1 | h1 | h1 | h1 | h1 | h1 | h1 | h1 | h1 | h1 | h1 |
    h1 | h1 <;> subst h1 <;>
  simp [shouldPrint, hm, invertedColor, invertedColorSingle, fullColor, foreground, reset, bold,
    italic, underline, boldReset, italicReset, underlineReset, strikethrough, strikethroughReset,
    left, osc99, lineChange, title, color16, link, Option.bind_eq_some] at h <;>
  first
  | (obtain ⟨rfl, rfl⟩ := h; exact ⟨rfl, by simp [setBase16Color_ansiString]⟩)
  | (obtain ⟨c, _, rfl, rfl⟩ := h; exact ⟨rfl, rfl⟩)
  | (obtain ⟨c, _, d, _, rfl, rfl⟩ := h; exact ⟨rfl, rfl⟩)

/-- A step over entries of the table that reports false on a text at whose
start the hyperlink pattern does not match: some entry matched, and the text
before is the captured literal, which begins with ESC, followed by the text
after. -/
theorem shouldPrint_consumes_aux : ∀ (order : List (String × Re)) (s s1 : ImageRenderer),
    (∀ e ∈ order, e ∈ ansiSequenceRegexMap) →
    (∀ e ∈ ansiSequenceRegexMap, e.1 = link → findNamedRegexMatch e.2 s.ansiString = none) →
    shouldPrint order s = some (false, s1) →
    ∃ e ∈ order, ∃ m pre, findNamedRegexMatch e.2 s.ansiString = some m ∧
      m.get STR = ESC :: pre ∧ s.ansiString = m.get STR ++ s1.ansiString := by
  intro order
  induction order with
  | nil => intro s s1 _ _ h; simp [shouldPrint] at h
  | cons e more ih =>
    intro s s1 hsub hnl h
    obtain ⟨k, r⟩ := e
    have he : (k, r) ∈ ansiSequenceRegexMap := hsub _ (List.mem_cons_self _ _)
    cases hf : findNamedRegexMatch r s.ansiString with
    | none =>
      have h2 : shouldPrint more s = some (false, s1) := by
        simpa [shouldPrint, hf] using h
      obtain ⟨e, hmem, m, pre, h3⟩ :=
        ih s s1 (fun e hmem => hsub e (List.mem_cons_of_mem _ hmem)) hnl h2
      exact ⟨e, List.mem_cons_of_mem _ hmem, m, pre, h3⟩
    | some m =>
      rcases table_names _ he with hk | hk
      · have := hnl _ he hk
        simp only at this
        rw [this] at hf
        cases hf
      · obtain ⟨_, htext⟩ := shouldPrint_head_returning k r more s s1 m false hk hf h
        obtain ⟨pre, hstr, hsplit⟩ := find_wholeGroup ESC r s.ansiString m
          (table_wholeGroup _ he) hf
        refine ⟨(k, r), List.mem_cons_self _ _, m, pre, hf, hstr, ?_⟩
        rw [htext, hstr]
        rw [hstr] at hsplit
        exact hsplit

/-- C12: in every traversal order, when a step of `shouldPrint` reports false
on a text at whose start the hyperlink pattern does not match, a pattern of the
table has matched, and the text before the step is the literal captured by that
pattern followed by the text after the step; the literal is not empty and
begins with ESC.  Moreover every match of every pattern of the table, the
hyperlink pattern included, captures as its literal a prefix of the text that
begins with ESC. -/
theorem shouldPrint_consumes_literal (order : List (String × Re)) (s s1 : ImageRenderer)
    (horder : order.Perm ansiSequenceRegexMap)
    (hnolink : ∀ e ∈ ansiSequenceRegexMap, e.1 = link →
      findNamedRegexMatch e.2 s.ansiString = none)
    (hstep : shouldPrint order s = some (false, s1)) :
    (∃ e ∈ ansiSequenceRegexMap, ∃ m lit, findNamedRegexMatch e.2 s.ansiString = some m ∧
      m.get STR = lit ∧ lit ≠ [] ∧ lit.head? = some ESC ∧
      s.ansiString = lit ++ s1.ansiString) ∧
    (∀ e ∈ ansiSequenceRegexMap, ∀ (text : List Char) (m : Captures),
      findNamedRegexMatch e.2 text = some m →
      (m.get STR).head? = some ESC ∧
      text = m.get STR ++ TrimPrefix text (m.get STR)) := by
  constructor
  · obtain ⟨e, hmem, m, pre, hf, hstr, htext⟩ :=
      shouldPrint_consumes_aux order s s1 (fun e he => horder.subset he) hnolink hstep
    refine ⟨e, horder.subset hmem, m, m.get STR, hf, rfl, ?_, ?_, htext⟩
    · rw [hstr]; simp
    · rw [hstr]; rfl
  · intro e he text m hf
    obtain ⟨pre, hstr, hsplit⟩ := find_wholeGroup ESC e.2 text m (table_wholeGroup _ he) hf
    refine ⟨by rw [hstr]; rfl, ?_⟩
    rw [hstr] at hsplit ⊢
    exact hsplit

/-- C12 at the text `ESC[1mx`, traversed in the order of the table. -/
theorem shouldPrint_consumes_literal_witness :
    (ansiSequenceRegexMap.Perm ansiSequenceRegexMap ∧
      (∀ e ∈ ansiSequenceRegexMap, e.1 = link →
        findNamedRegexMatch e.2 (NewImageRenderer (ESC :: "[1mx".toList)).ansiString = none) ∧
      shouldPrint ansiSequenceRegexMap (NewImageRenderer (ESC :: "[1mx".toList)) =
        some (false, { NewImageRenderer "x".toList with style := bold })) ∧
    ((∃ e ∈ ansiSequenceRegexMap, ∃ m lit,
        findNamedRegexMatch e.2 (NewImageRenderer (ESC :: "[1mx".toList)).ansiString = some m ∧
        m.get STR = lit ∧ lit ≠ [] ∧ lit.head? = some ESC ∧
        (NewImageRenderer (ESC :: "[1mx".toList)).ansiString =
          lit ++ ({ NewImageRenderer "x".toList with style := bold } : ImageRenderer).ansiString) ∧
      (∀ e ∈ ansiSequenceRegexMap, ∀ (text : List Char) (m : Captures),
        findNamedRegexMatch e.2 text = some m →
        (m.get STR).head? = some ESC ∧
        text = m.get STR ++ TrimPrefix text (m.get STR))) :=
  ⟨⟨List.Perm.refl _, by decide, by decide⟩,
    shouldPrint_consumes_literal ansiSequenceRegexMap (NewImageRenderer (ESC :: "[1mx".toList))
      { NewImageRenderer "x".toList with style := bold } (List.Perm.refl _) (by decide)
      (by decide)⟩

/-! ## The sequences without effect -/

/-- C13 (the code at the failing input): `ESC[29m` is matched by the pattern
`color16` as well as by `strikethroughReset`.  With a red foreground and the
text `ESC[29mX`, a traversal that visits `strikethroughReset` first (the order
of the map literal) leaves the foreground red, and a traversal that visits
`color16` first (the reverse order) sets the foreground to the default
foreground.  The progress marker and the title pattern end in a greedy `.+`:
on a line that holds a later `ESC\` or BEL the step consumes up to the last
one, here a whole hyperlink wrapper after the progress marker and the text
`ab` after the title. -/
theorem shouldPrint_strikethroughReset_shadowed :
    shouldPrint ansiSequenceRegexMap
        { NewImageRenderer (ESC :: "[29mX".toList) with foregroundColor := some ⟨255, 0, 0⟩ } =
      some (false, { NewImageRenderer ['X'] with foregroundColor := some ⟨255, 0, 0⟩ }) ∧
    shouldPrint ansiSequenceRegexMap.reverse
        { NewImageRenderer (ESC :: "[29mX".toList) with foregroundColor := some ⟨255, 0, 0⟩ } =
      some (false, { NewImageRenderer ['X'] with foregroundColor := some ⟨255, 255, 255⟩ }) ∧
    ansiSequenceRegexMap.reverse.Perm ansiSequenceRegexMap ∧
    shouldPrint ansiSequenceRegexMap
        (NewImageRenderer ((ESC :: "]9;9;/tmp".toList) ++ ([ESC, '\\'] ++
          (linkWrapper "/a".toList "hi".toList ++ ['X']))) ) =
      some (false, NewImageRenderer ['X']) ∧
    shouldPrint ansiSequenceRegexMap
        (NewImageRenderer ((ESC :: "]0;one".toList) ++ (BEL :: 'a' :: 'b' :: BEL :: ['X']))) =
      some (false, NewImageRenderer ['X']) := by
  refine ⟨by decide, by decide, List.reverse_perm _, by decide, by decide⟩

/-! ## Termination of the loop -/

theorem mem_lit (l : List Char) (st st1 : MState) (h : st1 ∈ (Re.lit l).run st) :
    st.1 = l ++ st1.1 ∧ st1.2 = st.2 := by
  simp only [Re.run] at h
  split at h
  · rename_i hp
    simp only [List.mem_singleton] at h
    subst h
    exact ⟨hasPrefix_split l st.1 hp, rfl⟩
  · simp at h

theorem mem_plus (p : Cls) (st st1 : MState) (h : st1 ∈ (Re.plus p).run st) :
    ∃ pre, pre ≠ [] ∧ st.1 = pre ++ st1.1 ∧ st1.2 = st.2 := by
  simp only [Re.run, List.mem_map] at h
  obtain ⟨u, hu, rfl⟩ := h
  obtain ⟨pre, hne, e⟩ := mem_plusRun _ _ _ hu
  exact ⟨pre, hne, e, rfl⟩

theorem mem_cat (a b : Re) (st st1 : MState) (h : st1 ∈ (Re.cat a b).run st) :
    ∃ x, x ∈ a.run st ∧ st1 ∈ b.run x := by
  simpa [Re.run, List.mem_flatMap] using h

theorem mem_group (name : String) (a : Re) (st st1 : MState)
    (h : st1 ∈ (Re.group name a).run st) :
    ∃ x, x ∈ a.run st ∧ st1 = (x.1, (name, st.1.take (st.1.length - x.1.length)) :: x.2) := by
  simp only [Re.run, List.mem_map] at h
  obtain ⟨x, hx, rfl⟩ := h
  exact ⟨x, hx, rfl⟩

theorem table_link : ∀ e ∈ ansiSequenceRegexMap, e.1 = link → e.2 = linkPattern := by
  intro e he hl
  simp only [ansiSequenceRegexMap, List.mem_cons, List.mem_singleton, List.not_mem_nil,
    or_false] at he
  rcases he with h | h | h | h | h | h | h | h | h | h | h | h | h | h | h | h | h | h | h <;>
    subst h <;>
    first
      | rfl
      | exact absurd hl (by decide)

/-- A match of the link pattern: the text starts with a wrapper around a link
text `u` that is not empty; the literal captured is the wrapper and the URL
field is `u`. -/
theorem link_match (text : List Char) (m : Captures)
    (hm : findNamedRegexMatch linkPattern text = some m) :
    ∃ p u rest, p ≠ [] ∧ u ≠ [] ∧ text = linkWrapper p u ++ rest ∧
      m.get STR = linkWrapper p u ∧ m.get URL = u := by
  simp only [findNamedRegexMatch, Option.map_eq_some'] at hm
  obtain ⟨st1, h1, rfl⟩ := hm
  have hmem := List.mem_of_mem_head? h1
  obtain ⟨x, hx, rfl⟩ := mem_group _ _ _ _ hmem
  obtain ⟨y1, hy1, hx⟩ := mem_cat _ _ _ _ hx
  obtain ⟨e1, c1⟩ := mem_lit _ _ _ hy1
  obtain ⟨y2, hy2, hx⟩ := mem_cat _ _ _ _ hx
  obtain ⟨p, hp, e2, c2⟩ := mem_plus _ _ _ hy2
  obtain ⟨y3, hy3, hx⟩ := mem_cat _ _ _ _ hx
  obtain ⟨e3, c3⟩ := mem_lit _ _ _ hy3
  obtain ⟨y4, hy4, hx⟩ := mem_cat _ _ _ _ hx
  obtain ⟨y5, hy5, rfl⟩ := mem_group _ _ _ _ hy4
  obtain ⟨u, hu, e5, c5⟩ := mem_plus _ _ _ hy5
  obtain ⟨e6, c6⟩ := mem_lit _ _ _ hx
  simp only at e1 e2 e3 e5 e6 c1 c2 c3 c5 c6
  have ht : text = linkWrapper p u ++ x.1 := by
    rw [e1, e2, e3, e5, e6]
    simp [linkWrapper, List.append_assoc]
  refine ⟨p, u, x.1, hp, hu, ht, ?_, ?_⟩
  · have h := take_consumed (linkWrapper p u) x.1
    rw [← ht] at h
    simpa [Captures.get] using h
  · have h := take_consumed u y5.1
    rw [← e5] at h
    rw [c6]
    simpa [Captures.get, STR, URL, c5, c3, c2, c1] using h

theorem linkWrapper_length (p u : List Char) : u.length < (linkWrapper p u).length := by
  simp [linkWrapper, linkEnd]
  omega

/-- One step over entries of the table: when it reports false the text has
become strictly shorter; when it reports true either nothing has changed, or
the text has become strictly shorter and is not empty. -/
theorem shouldPrint_shrinks : ∀ (order : List (String × Re)) (s s1 : ImageRenderer) (b : Bool),
    (∀ e ∈ order, e ∈ ansiSequenceRegexMap) →
    shouldPrint order s = some (b, s1) →
    (b = false → s1.ansiString.length < s.ansiString.length) ∧
    (b = true → s1 = s ∨
      (s1.ansiString.length < s.ansiString.length ∧ s1.ansiString ≠ [])) := by
  intro order
  induction order with
  | nil =>
    intro s s1 b _ h
    simp only [shouldPrint, Option.some.injEq, Prod.mk.injEq] at h
    obtain ⟨rfl, rfl⟩ := h
    exact ⟨by simp, fun _ => Or.inl rfl⟩
  | cons e more ih =>
    intro s s1 b hsub h
    obtain ⟨k, r⟩ := e
    have he : (k, r) ∈ ansiSequenceRegexMap := hsub _ (List.mem_cons_self _ _)
    have hmore : ∀ e ∈ more, e ∈ ansiSequenceRegexMap :=
      fun e hmem => hsub e (List.mem_cons_of_mem _ hmem)
    cases hf : findNamedRegexMatch r s.ansiString with
    | none =>
      have h2 : shouldPrint more s = some (b, s1) := by
        simpa [shouldPrint, hf] using h
      exact ih s s1 b hmore h2
    | some m =>
      rcases table_names _ he with hk | hk
      · simp only at hk
        subst hk
        have hr : r = linkPattern := table_link _ he rfl
        subst hr
        obtain ⟨p, u, rest, _, hu, htext, hstr, hurl⟩ := link_match _ _ hf
        rw [shouldPrint_link_step _ more s m hf] at h
        have hnew : m.get URL ++ TrimPrefix s.ansiString (m.get STR) = u ++ rest := by
          rw [hurl, hstr, htext, trimPrefix_append]
        rw [hnew] at h
        have hlen : (u ++ rest).length < s.ansiString.length := by
          have := linkWrapper_length p u
          rw [htext]
          simp only [List.length_append]
          omega
        have hne : u ++ rest ≠ [] := by simp [hu]
        obtain ⟨i1, i2⟩ := ih { s with ansiString := u ++ rest } s1 b hmore h
        simp only at i1 i2
        constructor
        · intro hb
          exact lt_trans (i1 hb) hlen
        · intro hb
          right
          rcases i2 hb with h3 | ⟨h3, h4⟩
          · subst h3
            exact ⟨hlen, hne⟩
          · exact ⟨lt_trans h3 hlen, h4⟩
      · obtain ⟨hb, htext⟩ := shouldPrint_head_returning k r more s s1 m b hk hf h
        obtain ⟨pre, hstr, hsplit⟩ := find_wholeGroup ESC r s.ansiString m
          (table_wholeGroup _ he) hf
        constructor
        · intro _
          rw [htext]
          have : s.ansiString.length =
              (ESC :: pre).length + (TrimPrefix s.ansiString (m.get STR)).length := by
            conv_lhs => rw [hsplit]
            simp only [List.length_append]
          rw [this]
          simp
        · intro hb2
          rw [hb] at hb2
          cases hb2

/-- The loop ends within as many rounds as the text has characters, whatever
the traversal orders are. -/
theorem loop_terminates_aux (orders : Nat → List (String × Re))
    (horders : ∀ k, ∀ e ∈ orders k, e ∈ ansiSequenceRegexMap) :
    ∀ (fuel : Nat) (s : ImageRenderer) (ops : List DrawOp), s.ansiString.length ≤ fuel →
    SavePNG_loop orders fuel s ops ≠ .outOfFuel := by
  intro fuel
  induction fuel with
  | zero =>
    intro s ops h
    have : s.ansiString = [] := List.eq_nil_of_length_eq_zero (Nat.le_zero.1 h)
    simp [SavePNG_loop, this]
  | succ fuel ih =>
    intro s ops h
    simp only [SavePNG_loop]
    split
    · simp
    · cases hsp : shouldPrint (orders fuel) s with
      | none => simp
      | some res =>
        obtain ⟨b, s1⟩ := res
        obtain ⟨i1, i2⟩ := shouldPrint_shrinks (orders fuel) s s1 b (horders fuel) hsp
        cases b with
        | false =>
          simp only
          exact ih s1 ops (by have := i1 rfl; omega)
        | true =>
          simp only
          cases hs1 : s1.ansiString with
          | nil => simp
          | cons c cs =>
            simp only
            apply ih
            simp only
            rcases i2 rfl with h3 | ⟨h3, _⟩
            · subst h3
              rw [hs1] at h
              simp only [List.length_cons] at h
              omega
            · rw [hs1] at h3
              simp only [List.length_cons] at h3
              omega

/-- C20: whatever order each round traverses the table in, the loop of
`SavePNG` started on a text of at most `fuel` characters comes to an end within
`fuel` rounds (by using the text up, or by a panic).  Each round makes the
text strictly shorter: a step of `shouldPrint` that reports false leaves a
strictly shorter text, and a step that reports true on a non-empty text leaves
a non-empty text that is no longer, of which the loop then takes the first
character.  A match of the hyperlink pattern captures a link text that is
strictly shorter than the wrapper it removes. -/
theorem SavePNG_loop_terminates (orders : Nat → List (String × Re)) (s : ImageRenderer)
    (ops : List DrawOp) (fuel : Nat)
    (horders : ∀ k, (orders k).Perm ansiSequenceRegexMap)
    (hfuel : s.ansiString.length ≤ fuel) :
    SavePNG_loop orders fuel s ops ≠ .outOfFuel ∧
    (∀ (k : Nat) (t t1 : ImageRenderer) (b : Bool),
      shouldPrint (orders k) t = some (b, t1) →
      (b = false → t1.ansiString.length < t.ansiString.length) ∧
      (b = true → t.ansiString ≠ [] →
        ∃ c cs, t1.ansiString = c :: cs ∧ cs.length < t.ansiString.length)) ∧
    (link, linkPattern) ∈ ansiSequenceRegexMap ∧
    (∀ (text : List Char) (m : Captures), findNamedRegexMatch linkPattern text = some m →
      (m.get URL).length < (m.get STR).length) := by
  have hsub : ∀ k, ∀ e ∈ orders k, e ∈ ansiSequenceRegexMap :=
    fun k e he => (horders k).subset he
  refine ⟨loop_terminates_aux orders hsub fuel s ops hfuel, ?_, ?_, ?_⟩
  · intro k t t1 b h
    obtain ⟨i1, i2⟩ := shouldPrint_shrinks (orders k) t t1 b (hsub k) h
    refine ⟨i1, ?_⟩
    intro hb hne
    rcases i2 hb with h3 | ⟨h3, h4⟩
    · subst h3
      obtain ⟨c, cs, e⟩ := List.exists_cons_of_ne_nil hne
      exact ⟨c, cs, e, by rw [e]; simp⟩
    · obtain ⟨c, cs, e⟩ := List.exists_cons_of_ne_nil h4
      refine ⟨c, cs, e, ?_⟩
      rw [e] at h3
      simp only [List.length_cons] at h3
      omega
  · simp [ansiSequenceRegexMap, linkPattern, linkTail, linkEnd]
  · intro text m hm
    obtain ⟨p, u, rest, _, _, _, hstr, hurl⟩ := link_match text m hm
    rw [hstr, hurl]
    exact linkWrapper_length p u

/-- C20 at the text `ab` with two rounds, the table traversed in the order of
the map literal. -/
theorem SavePNG_loop_terminates_witness :
    ((∀ k : Nat, ((fun _ => ansiSequenceRegexMap) k : List (String × Re)).Perm
        ansiSequenceRegexMap) ∧
      (NewImageRenderer "ab".toList).ansiString.length ≤ 2) ∧
    (SavePNG_loop (fun _ => ansiSequenceRegexMap) 2 (NewImageRenderer "ab".toList) [] ≠
        .outOfFuel ∧
      (∀ (k : Nat) (t t1 : ImageRenderer) (b : Bool),
        shouldPrint ((fun _ => ansiSequenceRegexMap) k) t = some (b, t1) →
        (b = false → t1.ansiString.length < t.ansiString.length) ∧
        (b = true → t.ansiString ≠ [] →
          ∃ c cs, t1.ansiString = c :: cs ∧ cs.length < t.ansiString.length)) ∧
      (link, linkPattern) ∈ ansiSequenceRegexMap ∧
      (∀ (text : List Char) (m : Captures), findNamedRegexMatch linkPattern text = some m →
        (m.get URL).length < (m.get STR).length)) :=
  ⟨⟨fun _ => List.Perm.refl _, by decide⟩,
    SavePNG_loop_terminates (fun _ => ansiSequenceRegexMap) (NewImageRenderer "ab".toList) [] 2
      (fun _ => List.Perm.refl _) (by decide)⟩

/-! ## The preparation of the text -/

/-- Dropping a leading run stops at the latest at a character that is not in
the run. -/
theorem dropWhile_keeps (p : Char → Bool) (b : Char) (t : List Char) (hb : p b = false) :
    ∀ u : List Char, ∃ u1, (u ++ b :: t).dropWhile p = u1 ++ b :: t ∧
      (u1 ++ b :: t).head?.map p = some false := by
  intro u
  induction u with
  | nil => exact ⟨[], by simp [List.dropWhile, hb], by simp [hb]⟩
  | cons c u ih =>
    cases hc : p c with
    | true =>
      obtain ⟨u1, h1, h2⟩ := ih
      exact ⟨u1, by simp [List.dropWhile, hc, h1], h2⟩
    | false =>
      exact ⟨c :: u, by simp [List.dropWhile, hc], by simp [hc]⟩

/-- Trimming keeps a part of the text that neither begins nor ends with the
character cut, and the trimmed text neither begins nor ends with it. -/
theorem trim_keeps (cut b l : Char) (mid : List Char) (hb : b ≠ cut) (hl : l ≠ cut)
    (u w : List Char) :
    ∃ u1 w1, Trim (u ++ (b :: (mid ++ l :: w))) cut = u1 ++ (b :: (mid ++ l :: w1)) ∧
      (∃ c rest, u1 ++ (b :: (mid ++ l :: w1)) = c :: rest ∧ c ≠ cut) ∧
      (u1 ++ (b :: (mid ++ l :: w1))).getLast? ≠ some cut := by
  have pb : (fun c => c == cut) b = false := by simpa using hb
  have pl : (fun c => c == cut) l = false := by simpa using hl
  obtain ⟨u1, h1, h2⟩ := dropWhile_keeps (fun c => c == cut) b (mid ++ l :: w) pb u
  have hrev : (u1 ++ b :: (mid ++ l :: w)).reverse =
      w.reverse ++ l :: (mid.reverse ++ b :: u1.reverse) := by simp
  obtain ⟨w2, h3, h4⟩ := dropWhile_keeps (fun c => c == cut) l
    (mid.reverse ++ b :: u1.reverse) pl w.reverse
  have htrim : Trim (u ++ (b :: (mid ++ l :: w))) cut = u1 ++ (b :: (mid ++ l :: w2.reverse)) := by
    simp only [Trim, h1, hrev, h3]
    simp
  refine ⟨u1, w2.reverse, htrim, ?_, ?_⟩
  · cases u1 with
    | nil => exact ⟨b, _, rfl, hb⟩
    | cons c u2 =>
      refine ⟨c, _, rfl, ?_⟩
      simpa using h2
  · have e : (u1 ++ (b :: (mid ++ l :: w2.reverse))).getLast? =
        (w2 ++ l :: (mid.reverse ++ b :: u1.reverse)).head? := by
      rw [← List.head?_reverse]
      simp
    rw [e]
    intro h
    rw [h] at h4
    simp at h4

/-- The text before the trimming: something, the attribution from its escape
character to the final `m` of its bold-off sequence, and something. -/
theorem attribution_shape (author text : List Char) :
    ∃ w, measureContent_attribution author text =
      (text ++ ['\n', '\n']) ++
        (ESC :: (("[1mhttps://ohmyposh.dev".toList ++ (ESC :: "[22".toList)) ++ 'm' :: w)) := by
  by_cases h : author.length > 0
  · exact ⟨" by ".toList ++ ((ESC :: "[1m".toList) ++ (author ++ (ESC :: "[22m".toList))), by
      simp [measureContent_attribution, attribution, h]⟩
  · exact ⟨[], by simp [measureContent_attribution, attribution, h]⟩

/-- C16: for every author and every text, the prepared text of
`measureContent` is a line feed followed by a character that is not a line
feed, and its last character is not a line feed. -/
theorem measureContent_prepare_one_newline (author text : List Char) :
    (∃ c rest, measureContent_prepare author text = '\n' :: c :: rest ∧ c ≠ '\n') ∧
    (measureContent_prepare author text).getLast? ≠ some '\n' := by
  obtain ⟨w, hw⟩ := attribution_shape author (measureContent_clean text)
  obtain ⟨u1, w1, h1, ⟨c, rest, h2, h3⟩, h4⟩ := trim_keeps '\n' ESC 'm'
    ("[1mhttps://ohmyposh.dev".toList ++ (ESC :: "[22".toList)) (by decide) (by decide)
    (measureContent_clean text ++ ['\n', '\n']) w
  have hp : measureContent_prepare author text = '\n' :: c :: rest := by
    rw [measureContent_prepare, hw, h1, h2]
  refine ⟨⟨c, rest, hp, h3⟩, ?_⟩
  rw [hp, List.getLast?_cons_cons, ← h2]
  exact h4

/-! ## The filler suffix -/

/-- C17 (counterexample): the text `ESC[1000C` holds the absolute-column-1000
sequence, which step (f) turns into the placeholder, and the suffix is appended
all the same; the text `ESC 7 ESC[1000C` holds it too and gets no suffix at its
end; the text `ESC 7 x` holds no such sequence and gets no suffix at its end
either, the filler before `x` being the replacement of `ESC 7`. -/
theorem measureContent_clean_counterexample :
    Contains (ESC :: "[1000C".toList) (ESC :: "[1000C".toList) = true ∧
    measureContent_clean (ESC :: "[1000C".toList) = RPrompt ++ promptFiller ∧
    measureContent_clean (ESC :: '7' :: ESC :: "[1000C".toList) = promptFiller ++ RPrompt ∧
    Contains [ESC, '7', 'x'] (ESC :: "[1000C".toList) = false ∧
    measureContent_clean [ESC, '7', 'x'] = promptFiller ++ ['x'] := by
  decide

theorem ite_suffix (b : Bool) (x f : List Char) (hf : f ≠ []) :
    ((if !b then x ++ f else x) = x ++ f ↔ b = false) ∧
    ((if !b then x ++ f else x) = x ↔ b = true) := by
  cases b <;> simp [hf]

/-- C17 (amended): for every text, the cleaning appends the suffix, `_` and 30
spaces, to the result of the six replacements exactly when the text as it
comes in does not contain the cursor-save sequence `ESC 7`, and appends nothing
exactly when it does. -/
theorem measureContent_clean_suffix (text : List Char) :
    (measureContent_clean text =
        ReplaceAll (ReplaceAll (ReplaceAll (ReplaceAll (ReplaceAll (ReplaceAll text
          (ESC :: "[m".toList) (ESC :: "[0m".toList)) (ESC :: "[K".toList) [])
          [ESC, '7'] promptFiller) [ESC, '8'] []) (ESC :: "[1F".toList) [])
          (ESC :: "[1000C".toList) RPrompt ++ promptFiller ↔
      Contains text [ESC, '7'] = false) ∧
    (measureContent_clean text =
        ReplaceAll (ReplaceAll (ReplaceAll (ReplaceAll (ReplaceAll (ReplaceAll text
          (ESC :: "[m".toList) (ESC :: "[0m".toList)) (ESC :: "[K".toList) [])
          [ESC, '7'] promptFiller) [ESC, '8'] []) (ESC :: "[1F".toList) [])
          (ESC :: "[1000C".toList) RPrompt ↔
      Contains text [ESC, '7'] = true) := by
  exact ite_suffix _ _ _ (by decide)

/-! ## A second preparation -/

/-- An occurrence of `old` at the start of `u ++ a :: t`, where `a` is not a
character of `old`, lies within `u`. -/
theorem hasPrefix_within (a : Char) (t : List Char) :
    ∀ (old u : List Char), a ∉ old → HasPrefix (u ++ a :: t) old = true →
      (u ++ a :: t).drop old.length = u.drop old.length ++ a :: t ∧ old.length ≤ u.length := by
  intro old
  induction old with
  | nil => intro u _ _; simp
  | cons c old ih =>
    intro u ha h
    cases u with
    | nil =>
      simp only [List.nil_append, HasPrefix, Bool.and_eq_true, beq_iff_eq] at h
      exact absurd (h.1 ▸ List.mem_cons_self _ _) ha
    | cons d u =>
      simp only [List.cons_append, HasPrefix, Bool.and_eq_true, beq_iff_eq] at h
      obtain ⟨h1, h2⟩ := ih u (fun hm => ha (List.mem_cons_of_mem _ hm)) h.2
      exact ⟨by simpa using h1, by simpa using h2⟩

theorem replaceAllLoop_cons (old new : List Char) (n : Nat) (c : Char) (cs : List Char) :
    replaceAllLoop old new (n + 1) (c :: cs) =
      if HasPrefix (c :: cs) old then
        new ++ replaceAllLoop old new n ((c :: cs).drop old.length)
      else c :: replaceAllLoop old new n cs := rfl

/-- The scan copies characters that cannot begin an occurrence. -/
theorem replaceAllLoop_copy (old new : List Char) (c0 : Char) (o : List Char)
    (hold : old = c0 :: o) :
    ∀ (A v : List Char) (n : Nat), (∀ x ∈ A, x ≠ c0) → A.length ≤ n →
      replaceAllLoop old new n (A ++ v) = A ++ replaceAllLoop old new (n - A.length) v := by
  intro A
  induction A with
  | nil => intro v n _ _; simp
  | cons a A ih =>
    intro v n hA hn
    cases n with
    | zero => simp at hn
    | succ n =>
      have ha : a ≠ c0 := hA a (List.mem_cons_self _ _)
      have hp : HasPrefix (a :: (A ++ v)) old = false := by
        rw [hold]
        simp [HasPrefix, ha]
      rw [List.cons_append, replaceAllLoop_cons, hp]
      simp only [Bool.false_eq_true, if_false, List.length_cons, Nat.add_sub_add_right]
      rw [ih v n (fun x hx => hA x (List.mem_cons_of_mem _ hx)) (by simpa using hn)]
      rfl

/-- A replacement keeps a part `a :: A` of the text when no occurrence of `old`
can begin inside it and none can reach into it. -/
theorem replaceAllLoop_keeps (old new : List Char) (c0 : Char) (o : List Char)
    (hold : old = c0 :: o) (a : Char) (A : List Char) (ha : a ∉ old)
    (hA : ∀ x ∈ a :: A, x ≠ c0) :
    ∀ (n : Nat) (u v : List Char), (u ++ a :: (A ++ v)).length ≤ n →
      ∃ u1 v1, replaceAllLoop old new n (u ++ a :: (A ++ v)) = u1 ++ a :: (A ++ v1) := by
  intro n
  induction n with
  | zero => intro u v h; simp at h
  | succ n ih =>
    intro u v h
    cases u with
    | nil =>
      have := replaceAllLoop_copy old new c0 o hold (a :: A) v (n + 1) hA
        (by simp only [List.nil_append, List.length_cons, List.length_append] at h
            simp only [List.length_cons]
            omega)
      exact ⟨[], _, by simpa using this⟩
    | cons c u =>
      rw [List.cons_append, replaceAllLoop_cons]
      split
      · rename_i hp
        have hp2 : HasPrefix ((c :: u) ++ a :: (A ++ v)) old = true := by simpa using hp
        obtain ⟨h1, h2⟩ := hasPrefix_within a (A ++ v) old (c :: u) ha hp2
        have h3 : List.drop old.length (c :: (u ++ a :: (A ++ v))) =
            (c :: u).drop old.length ++ a :: (A ++ v) := by simpa using h1
        rw [h3]
        have hlen : ((c :: u).drop old.length ++ a :: (A ++ v)).length ≤ n := by
          have ho : 1 ≤ old.length := by rw [hold]; simp
          simp only [List.length_append, List.length_drop, List.length_cons] at h h2 ⊢
          omega
        obtain ⟨u1, v1, e⟩ := ih _ v hlen
        exact ⟨new ++ u1, v1, by rw [e]; simp⟩
      · have hlen : (u ++ a :: (A ++ v)).length ≤ n := by
          simp only [List.cons_append, List.length_cons] at h
          omega
        obtain ⟨u1, v1, e⟩ := ih u v hlen
        exact ⟨c :: u1, v1, by rw [e]; simp⟩

theorem replaceAll_keeps (old new : List Char) (c0 : Char) (o : List Char)
    (hold : old = c0 :: o) (a : Char) (A : List Char) (ha : a ∉ old)
    (hA : ∀ x ∈ a :: A, x ≠ c0) (u v : List Char) :
    ∃ u1 v1, ReplaceAll (u ++ a :: (A ++ v)) old new = u1 ++ a :: (A ++ v1) :=
  replaceAllLoop_keeps old new c0 o hold a A ha hA _ u v (le_refl _)

/-- The cleaning keeps the address of the attribution. -/
theorem clean_keeps (u v : List Char) :
    ∃ u1 v1, measureContent_clean (u ++ 'h' :: ("ttps://ohmyposh.dev".toList ++ v)) =
      u1 ++ 'h' :: ("ttps://ohmyposh.dev".toList ++ v1) := by
  have hA : ∀ x ∈ 'h' :: "ttps://ohmyposh.dev".toList, x ≠ ESC := by decide
  obtain ⟨u1, v1, e1⟩ := replaceAll_keeps (ESC :: "[m".toList) (ESC :: "[0m".toList) ESC _ rfl
    'h' "ttps://ohmyposh.dev".toList (by decide) hA u v
  obtain ⟨u2, v2, e2⟩ := replaceAll_keeps (ESC :: "[K".toList) [] ESC _ rfl
    'h' "ttps://ohmyposh.dev".toList (by decide) hA u1 v1
  obtain ⟨u3, v3, e3⟩ := replaceAll_keeps [ESC, '7'] promptFiller ESC _ rfl
    'h' "ttps://ohmyposh.dev".toList (by decide) hA u2 v2
  obtain ⟨u4, v4, e4⟩ := replaceAll_keeps [ESC, '8'] [] ESC _ rfl
    'h' "ttps://ohmyposh.dev".toList (by decide) hA u3 v3
  obtain ⟨u5, v5, e5⟩ := replaceAll_keeps (ESC :: "[1F".toList) [] ESC _ rfl
    'h' "ttps://ohmyposh.dev".toList (by decide) hA u4 v4
  obtain ⟨u6, v6, e6⟩ := replaceAll_keeps (ESC :: "[1000C".toList) RPrompt ESC _ rfl
    'h' "ttps://ohmyposh.dev".toList (by decide) hA u5 v5
  simp only [measureContent_clean, e1, e2, e3, e4, e5, e6]
  split
  · exact ⟨u6, v6 ++ promptFiller, by simp⟩
  · exact ⟨u6, v6, rfl⟩

set_option maxRecDepth 100000 in
/-- C14 (counterexample): the empty text, without author, does not hold the
attribution; prepared once it holds the address of the attribution once, and
prepared twice it holds it twice.  With the author `me` the text prepared twice
holds the author suffix twice as well. -/
theorem measureContent_prepare_twice_counterexample :
    Contains [] "https://ohmyposh.dev".toList = false ∧
    countOccurrences "https://ohmyposh.dev".toList (measureContent_prepare [] []) = 1 ∧
    countOccurrences "https://ohmyposh.dev".toList
      (measureContent_prepare [] (measureContent_prepare [] [])) = 2 ∧
    measureContent_prepare [] (measureContent_prepare [] []) =
      '\n' :: (promptFiller ++ ('\n' :: '\n' :: (attribution ++ (promptFiller ++
        ('\n' :: '\n' :: attribution))))) ∧
    countOccurrences (" by ".toList ++ (ESC :: "[1mme".toList))
      (measureContent_prepare "me".toList (measureContent_prepare "me".toList [])) = 2 := by
  decide

/-- C14 (amended): for every author and every text, preparing a text that is
already prepared appends the attribution once more: the result holds the
address `https://ohmyposh.dev` of the attribution at two places at least. -/
theorem measureContent_prepare_twice (author text : List Char) :
    ∃ u v w, measureContent_prepare author (measureContent_prepare author text) =
      u ++ ("https://ohmyposh.dev".toList ++ (v ++ ("https://ohmyposh.dev".toList ++ w))) := by
  -- the text prepared once
  obtain ⟨w0, hw0⟩ := attribution_shape author (measureContent_clean text)
  obtain ⟨u1, w1, h1, _, _⟩ := trim_keeps '\n' ESC 'm'
    ("[1mhttps://ohmyposh.dev".toList ++ (ESC :: "[22".toList)) (by decide) (by decide)
    (measureContent_clean text ++ ['\n', '\n']) w0
  have hp : measureContent_prepare author text =
      ('\n' :: (u1 ++ (ESC :: "[1m".toList))) ++
        'h' :: ("ttps://ohmyposh.dev".toList ++ (ESC :: '[' :: '2' :: '2' :: 'm' :: w1)) := by
    rw [measureContent_prepare, hw0, h1]
    simp
  -- cleaned again
  obtain ⟨u2, v2, h2⟩ := clean_keeps ('\n' :: (u1 ++ (ESC :: "[1m".toList)))
    (ESC :: '[' :: '2' :: '2' :: 'm' :: w1)
  obtain ⟨w3, hw3⟩ := attribution_shape author
    (measureContent_clean (measureContent_prepare author text))
  obtain ⟨u4, w4, h4, _, _⟩ := trim_keeps '\n' 'h' 'm'
    ("ttps://ohmyposh.dev".toList ++ (v2 ++ ('\n' :: '\n' :: ESC ::
      ("[1mhttps://ohmyposh.dev".toList ++ (ESC :: "[22".toList))))) (by decide) (by decide)
    u2 w3
  refine ⟨'\n' :: u4, v2 ++ ('\n' :: '\n' :: ESC :: "[1m".toList), ESC :: '[' :: '2' :: '2' :: 'm' :: w4, ?_⟩
  have e : measureContent_attribution author
      (measureContent_clean (measureContent_prepare author text)) =
      u2 ++ ('h' :: (("ttps://ohmyposh.dev".toList ++ (v2 ++ ('\n' :: '\n' :: ESC ::
        ("[1mhttps://ohmyposh.dev".toList ++ (ESC :: "[22".toList))))) ++ 'm' :: w3)) := by
    rw [hw3, hp, h2]
    simp
  rw [measureContent_prepare, e, h4]
  simp

/-! ## The number of spaces of the alignment -/

theorem repeat_space (n : Nat) : Repeat [' '] (n : Int) = some (List.replicate n ' ') := by
  have h : ¬ ((n : Int) < 0) := by omega
  simp only [Repeat, h, if_false, Int.toNat_ofNat, Option.some.injEq]
  induction n with
  | zero => rfl
  | succ n ih => simp [List.replicate_succ, ih]

set_option maxRecDepth 100000 in
theorem mulFloat147_small : ∀ n < 1000, mulFloat147 n = n * 147 / 100 := by
  decide

/-- C15 (amended): for every length function `len` standing for
`lenWithoutANSI`, every width and every line that contains the placeholder and
whose length `len line`, in which the seven characters of the placeholder
count, is at most the width less seven, the first placeholder of the line is
replaced by `int(float64(linewidth - len line - 7) * 1.47)` spaces; for a
difference below 1000 that number is `(linewidth - len line - 7) * 147 / 100`
rounded down. -/
theorem measureContent_line_spaces (len : List Char → Nat) (linewidth : Nat) (line : List Char)
    (hline : Contains line RPrompt = true) (hlen : len line + 7 ≤ linewidth) :
    measureContent_line len linewidth line =
      some (ReplaceFirst line RPrompt
        (List.replicate (mulFloat147 (linewidth - len line - 7)) ' ')) ∧
    (linewidth - len line - 7 < 1000 →
      mulFloat147 (linewidth - len line - 7) = (linewidth - len line - 7) * 147 / 100) := by
  constructor
  · have h1 : ¬ (len line ≥ linewidth) := by omega
    have h2 : ((linewidth : Int) - (len line : Int) - 7) = ((linewidth - len line - 7 : Nat) : Int) := by
      omega
    have h3 : scaleLeftOver ((linewidth - len line - 7 : Nat) : Int) =
        ((mulFloat147 (linewidth - len line - 7) : Nat) : Int) := by
      have : ¬ (((linewidth - len line - 7 : Nat) : Int) < 0) := by omega
      simp only [scaleLeftOver, this, if_false, Int.toNat_ofNat]
    have h4 : ((RPrompt.length : Nat) : Int) = 7 := by decide
    simp only [measureContent_line, hline, Bool.not_true, Bool.false_eq_true, if_false, h1, h4,
      h2, h3, repeat_space, Option.map_some']
  · exact mulFloat147_small _

/-- C15 (amended) at the example: the width 50 and the line `0123456789RPROMPT`
of length 17 give 38 spaces. -/
theorem measureContent_line_spaces_witness :
    (Contains ("0123456789".toList ++ RPrompt) RPrompt = true ∧
      lenWithoutANSI ("0123456789".toList ++ RPrompt) + 7 ≤ 50) ∧
    (measureContent_line lenWithoutANSI 50 ("0123456789".toList ++ RPrompt) =
        some (ReplaceFirst ("0123456789".toList ++ RPrompt) RPrompt
          (List.replicate
            (mulFloat147 (50 - lenWithoutANSI ("0123456789".toList ++ RPrompt) - 7)) ' ')) ∧
      (50 - lenWithoutANSI ("0123456789".toList ++ RPrompt) - 7 < 1000 →
        mulFloat147 (50 - lenWithoutANSI ("0123456789".toList ++ RPrompt) - 7) =
          (50 - lenWithoutANSI ("0123456789".toList ++ RPrompt) - 7) * 147 / 100)) :=
  ⟨⟨by decide, by decide⟩,
    measureContent_line_spaces lenWithoutANSI 50 ("0123456789".toList ++ RPrompt)
      (by decide) (by decide)⟩

set_option maxRecDepth 100000 in
/-- C15 (counterexample): the width is 50 and the line is `0123456789` followed
by the placeholder, so the length without the placeholder is 10; the length
that the code takes is 17, the placeholder counted, and the placeholder is
replaced by `int(26 * 1.47) = 38` spaces, not 48.  It is so in the whole pass
on a text whose longest line has 50 characters. -/
theorem measureContent_line_spaces_counterexample :
    lenWithoutANSI "0123456789".toList = 10 ∧
    lenWithoutANSI ("0123456789".toList ++ RPrompt) = 17 ∧
    measureContent_line lenWithoutANSI 50 ("0123456789".toList ++ RPrompt) =
      some ("0123456789".toList ++ List.replicate 38 ' ') ∧
    calculateWidth lenWithoutANSI (measureContent_prepare []
      (List.replicate 50 'x' ++ ('\n' :: ESC :: '7' :: '\n' ::
        ("0123456789".toList ++ (ESC :: "[1000C".toList))))) = 50 ∧
    measureContent lenWithoutANSI []
      (NewImageRenderer (List.replicate 50 'x' ++ ('\n' :: ESC :: '7' :: '\n' ::
        ("0123456789".toList ++ (ESC :: "[1000C".toList))))) =
      some (NewImageRenderer ('\n' :: (List.replicate 50 'x' ++ ('\n' :: (promptFiller ++
        ('\n' :: ("0123456789".toList ++ (List.replicate 38 ' ' ++
          ('\n' :: '\n' :: attribution))))))))) := by
  decide

/-! ## Placeholders left over and negative counts -/

/-- C18 (the code at the failing input): the loop that the source comments
with `replace all RPROMPT occurrences` calls `strings.Replace` with the count
1.  On the text `ESC[1000C ESC[1000C`, without author, the line of the two
placeholders is the longest one, the first placeholder becomes seven spaces
and the second one stays in the text. -/
theorem measureContent_keeps_placeholder :
    measureContent lenWithoutANSI []
        (NewImageRenderer ((ESC :: "[1000C".toList) ++ (ESC :: "[1000C".toList))) =
      some (NewImageRenderer ('\n' :: (List.replicate 7 ' ' ++ (RPrompt ++ (promptFiller ++
        ('\n' :: '\n' :: attribution)))))) ∧
    Contains ('\n' :: (List.replicate 7 ' ' ++ (RPrompt ++ (promptFiller ++
        ('\n' :: '\n' :: attribution))))) RPrompt = true := by
  decide

/-- C19 (the code at the failing input): on the text `ESC[1000C`, twenty
letters and a line feed, without author, the line of the placeholder has 27
characters and the longest line, the filler, has 31; the number of spaces is
`int(float64(31 - 27 - 7) * 1.47) = -4`, on which `strings.Repeat` panics, and
so does `measureContent`. -/
theorem measureContent_negative_count :
    measureContent_prepare [] ((ESC :: "[1000C".toList) ++ (List.replicate 20 'x' ++ ['\n'])) =
      '\n' :: (RPrompt ++ (List.replicate 20 'x' ++ ('\n' :: (promptFiller ++
        ('\n' :: '\n' :: attribution))))) ∧
    calculateWidth lenWithoutANSI (measureContent_prepare []
      ((ESC :: "[1000C".toList) ++ (List.replicate 20 'x' ++ ['\n']))) = 31 ∧
    lenWithoutANSI (RPrompt ++ List.replicate 20 'x') = 27 ∧
    scaleLeftOver (31 - 27 - 7) = -4 ∧
    Repeat [' '] (-4) = none ∧
    measureContent_line lenWithoutANSI 31 (RPrompt ++ List.replicate 20 'x') = none ∧
    measureContent lenWithoutANSI []
      (NewImageRenderer ((ESC :: "[1000C".toList) ++ (List.replicate 20 'x' ++ ['\n']))) =
      none := by
  decide

end Image
